import Mathlib

/-!  Shallow embedding of `csvtool.py` (package `CSV`).

This file models, directly from the source: cell values, Python string
to number conversion (`int(...)`, `float(...)`), the `numeric` coercion,
`parse_range`, the per-row join/keep pipeline of `main`, the driver loop,
and the fixed-width `TableWriter` renderer.  Scope notes:

* Strings are handled at the character-list level; character classes
  (digits, whitespace) are ASCII, matching the data the program handles.
* Python `float` values are modelled as exact decimal numbers
  `m / 10 ^ e` plus the special values `inf`, `-inf`, `nan`; IEEE
  rounding and scientific-notation rendering are outside this model,
  which is exact on the decimal strings the program manipulates.
-/

deriving instance DecidableEq for Except

/-- ASCII whitespace, as stripped by Python's `str.strip`, `int()` and
`float()` (unicode whitespace is outside the scope of this model). -/
def wsChar (c : Char) : Bool :=
  c == ' ' || c == '\t' || c == '\n' || c == '\r' || c == '\x0b' || c == '\x0c'

def dropLeadWs : List Char → List Char
  | [] => []
  | c :: cs => if wsChar c then dropLeadWs cs else c :: cs

/-- Python `str.strip()` (ASCII whitespace scope). -/
def pyStripChars (cs : List Char) : List Char :=
  (dropLeadWs ((dropLeadWs cs).reverse)).reverse

def digVal (c : Char) : Nat := c.toNat - 48

def digitChar (d : Nat) : Char := Char.ofNat (48 + d)

def natCharsAux : Nat → Nat → List Char
  | 0, _ => []
  | fuel + 1, n =>
    if n < 10 then [digitChar n]
    else natCharsAux fuel (n / 10) ++ [digitChar (n % 10)]

/-- Decimal digit characters of `n`, most significant first (`str` of a
nonnegative integer in Python). -/
def natChars (n : Nat) : List Char := natCharsAux (n + 1) n

/-- Python `str` of an integer. -/
def intChars (i : Int) : List Char :=
  if i < 0 then '-' :: natChars i.natAbs else natChars i.natAbs

def intStr (i : Int) : String := String.mk (intChars i)

/-- One run of decimal digits with single underscores allowed between
digits, as accepted inside Python `int` / `float` literals.  Returns the
accumulated value, the count of digits consumed, and the unconsumed
rest. -/
def digRun : List Char → Nat → Nat → Nat × Nat × List Char
  | [], v, k => (v, k, [])
  | c :: cs, v, k =>
    if c.isDigit then digRun cs (v * 10 + digVal c) (k + 1)
    else if c == '_' && k != 0 then
      match cs with
      | c2 :: cs2 =>
        if c2.isDigit then digRun cs2 (v * 10 + digVal c2) (k + 1)
        else (v, k, c :: cs)
      | [] => (v, k, [c])
    else (v, k, c :: cs)

/-- An optional leading sign; returns (negative, rest). -/
def signedBody : List Char → Bool × List Char
  | [] => (false, [])
  | c :: cs =>
    if c = '-' then (true, cs)
    else if c = '+' then (false, cs)
    else (false, c :: cs)

/-- Python `int(s)`: strip whitespace, optional sign, then a nonempty
digit run; anything left over is a `ValueError` (`none`). -/
def pyIntOfChars (cs : List Char) : Option Int :=
  let cs1 := pyStripChars cs
  let p := signedBody cs1
  match digRun p.2 0 0 with
  | (v, k, []) =>
    if k == 0 then Option.none
    else Option.some (if p.1 then -(v : Int) else (v : Int))
  | _ => Option.none

def pyInt (s : String) : Option Int := pyIntOfChars s.data

/-- Python float values: exact decimals `m / 10 ^ e` plus specials. -/
inductive PyFloat where
  | fin (m : Int) (e : Nat)
  | inf
  | ninf
  | nan
deriving DecidableEq

/-- Build the finite float `±mAbs * 10 ^ (x - k)` from a parsed mantissa
and exponent. -/
def mkFinDec (neg : Bool) (mAbs : Nat) (x : Int) (k : Nat) : PyFloat :=
  let s : Int := if neg then -(mAbs : Int) else (mAbs : Int)
  if (k : Int) ≤ x then .fin (s * (10 : Int) ^ (x - (k : Int)).toNat) 0
  else .fin s ((k : Int) - x).toNat

def lowChars (cs : List Char) : List Char := cs.map Char.toLower

/-- Exponent-and-end part of a Python float literal.  `m` is the mantissa
value accumulated so far, `k2` the number of fractional digits, `ktot`
the total number of mantissa digits (must be nonzero). -/
def floatExp (neg : Bool) (m : Nat) (k2 ktot : Nat) : List Char → Option PyFloat
  | [] => if ktot == 0 then Option.none else Option.some (mkFinDec neg m 0 k2)
  | c :: r2 =>
    if ktot == 0 then Option.none
    else if c == 'e' || c == 'E' then
      let p := signedBody r2
      match digRun p.2 0 0 with
      | (x, kx, []) =>
        if kx == 0 then Option.none
        else Option.some (mkFinDec neg m (if p.1 then -(x : Int) else (x : Int)) k2)
      | _ => Option.none
    else Option.none

/-- Mantissa part of a Python float literal (after the sign). -/
def floatMantissa (neg : Bool) (cs : List Char) : Option PyFloat :=
  let t1 := digRun cs 0 0
  match t1.2.2 with
  | [] => floatExp neg t1.1 0 t1.2.1 []
  | c :: r =>
    if c = '.' then
      let t2 := digRun r t1.1 0
      floatExp neg t2.1 t2.2.1 (t1.2.1 + t2.2.1) t2.2.2
    else floatExp neg t1.1 0 t1.2.1 (c :: r)

/-- Python `float(s)` (ASCII scope): strip whitespace, optional sign,
then `inf`/`infinity`/`nan` (case-insensitive) or a decimal literal with
optional fraction and exponent, underscores allowed between digits. -/
def pyFloatOfChars (cs : List Char) : Option PyFloat :=
  let cs1 := pyStripChars cs
  let p := signedBody cs1
  let low := lowChars p.2
  if low = ['i', 'n', 'f'] || low = ['i', 'n', 'f', 'i', 'n', 'i', 't', 'y'] then
    Option.some (if p.1 then .ninf else .inf)
  else if low = ['n', 'a', 'n'] then Option.some .nan
  else floatMantissa p.1 p.2

def pyFloat (s : String) : Option PyFloat := pyFloatOfChars s.data

/-- Strip factors of ten: `normD m e` is the normalized representation of
the decimal `m / 10 ^ e` (trailing zero fraction digits removed). -/
def normD : Int → Nat → Int × Nat
  | m, 0 => (m, 0)
  | m, e + 1 => if m % 10 == 0 then normD (m / 10) e else (m, e + 1)

/-- `float.is_integer` for a finite value `m / 10 ^ e`. -/
def isIntD (m : Int) (e : Nat) : Bool := m % (10 : Int) ^ e == 0

/-- `int(f)` for a finite float whose value is integral. -/
def toIntD (m : Int) (e : Nat) : Int := m / (10 : Int) ^ e

/-- Decimal rendering of a normalized finite float, Python `repr` style
(`4 ↦ "4.0"`, `325/100 ↦ "3.25"`, `5/100 ↦ "0.05"`). -/
def decChars (m : Int) (e : Nat) : List Char :=
  let sign : List Char := if m < 0 then ['-'] else []
  let N := m.natAbs
  if e == 0 then sign ++ natChars N ++ ['.', '0']
  else
    let fd := natChars (N % 10 ^ e)
    sign ++ natChars (N / 10 ^ e) ++
      '.' :: (List.replicate (e - fd.length) '0' ++ fd)

/-- Python `str()` of a float. -/
def pyFloatStr : PyFloat → String
  | .fin m e => String.mk (decChars (normD m e).1 (normD m e).2)
  | .inf => "inf"
  | .ninf => "-inf"
  | .nan => "nan"

/-- A cell value flowing through the pipeline: string, integer, float or
Python `None`. -/
inductive Cell where
  | str (s : String)
  | int (n : Int)
  | float (f : PyFloat)
  | none
deriving DecidableEq

/-- Python `str()` of a cell value. -/
def pyStr : Cell → String
  | .str s => s
  | .int n => intStr n
  | .float f => pyFloatStr f
  | .none => "None"

/-- The currency symbols of `re_numeric` (taken verbatim from the
source's character class). -/
def currencyChars : List Char :=
  "$€£¥₣₹ﺪﻛﺇ﷼₻₽₾₺₼₸₴₷฿원₫₮₯₱₳₵₲₪₰".data

def intPartChar (c : Char) : Bool := c == ',' || c.isDigit

/-- Drop one trailing newline, the position where `$` may also match. -/
def dropNl (cs : List Char) : List Char :=
  match cs.reverse with
  | '\n' :: r => r.reverse
  | _ => cs

/-- The `[,0-9]*(\.\d*)?$` tail of `re_numeric`. -/
def reTail (cs : List Char) : Bool :=
  match cs.dropWhile intPartChar with
  | [] => true
  | '.' :: r => (r.dropWhile Char.isDigit).isEmpty
  | _ => false

/-- `re_numeric.match(y)` from the source: one optional currency symbol,
an optional run of `[,0-9]`, an optional `.` with optional digits, then
`$` (end of string, or just before one final newline).  The pattern
pieces use disjoint character classes, so greedy matching needs no
backtracking. -/
def reNumericMatches (s : String) : Bool :=
  match dropNl s.data with
  | [] => true
  | c :: r => if currencyChars.contains c then reTail r else reTail (c :: r)

/-- The regex-gated mutation of `numeric`: strip a leading `"$"`, then
remove every comma (the source guards the removal with an `in` test,
which does not change the result). -/
def mutChars (cs : List Char) : List Char :=
  let c1 := if cs.head? = Option.some '$' then cs.tail else cs
  if c1.contains ',' then c1.filter (fun c => !(c == ',')) else c1

/-- The body of `numeric(x)` once the working string `y0` (`x` itself,
or `str(x)`) is fixed: regex-gated stripping, then `int(y)`, then
`float(y)` with integral floats narrowed to `int`, else the original
value `x`. -/
def numericCore (y0 : String) (x : Cell) : Cell :=
  let y := if reNumericMatches y0 then mutChars y0.data else y0.data
  match pyIntOfChars y with
  | Option.some n => .int n
  | Option.none =>
    match pyFloatOfChars y with
    | Option.some f =>
      match f with
      | .fin m e => if isIntD m e then .int (toIntD m e) else .float (.fin m e)
      | g => .float g
    | Option.none => x

/-- `numeric(x)` from the source. -/
def numeric (x : Cell) : Cell :=
  numericCore (match x with | .str s => s | _ => pyStr x) x

/-- Python `s.split(sep)` for a one-character separator: split on every
occurrence, keeping empty pieces. -/
def splitOnChar (sep : Char) : List Char → List (List Char)
  | [] => [[]]
  | c :: cs =>
    match splitOnChar sep cs with
    | [] => [[c]]
    | h :: t => if c == sep then [] :: h :: t else (c :: h) :: t

/-- A parsed field range: 0-based start and an optional (0-based,
exclusive) end; `Option.none` is "to end of row". -/
abbrev FieldRange := Int × Option Int

/-- Sequence a list of fallible computations, stopping at the first
exception (the order Python evaluates and raises in). -/
def exMapM (f : α → Except String β) : List α → Except String (List β)
  | [] => .ok []
  | a :: l =>
    match f a with
    | .error e => .error e
    | .ok b => (exMapM f l).map (b :: ·)

/-- One token of `parse_range`: either `N`, or `N-M` with empty pieces
defaulting; three or more pieces is the `n, m = r` unpack `ValueError`. -/
def parseRangeToken (t : List Char) : Except String FieldRange :=
  match splitOnChar '-' t with
  | [p] =>
    match pyIntOfChars p with
    | Option.some m => .ok (m - 1, Option.some m)
    | Option.none => .error "ValueError: invalid literal for int"
  | [p1, p2] =>
    match (if p1.isEmpty then Option.some 0 else (pyIntOfChars p1).map (· - 1)) with
    | Option.none => .error "ValueError: invalid literal for int"
    | Option.some n =>
      match (if p2.isEmpty then Option.some Option.none
             else (pyIntOfChars p2).map Option.some) with
      | Option.none => .error "ValueError: invalid literal for int"
      | Option.some m => .ok (n, m)
  | _ => .error "ValueError: too many values to unpack"

/-- `parse_range(s)` from the source: split on commas, strip each token,
convert each token to an `(n, m)` range tuple. -/
def rangeTokens (s : String) : List (List Char) :=
  (splitOnChar ',' s.data).map pyStripChars

def parse_range (s : String) : Except String (List FieldRange) :=
  exMapM parseRangeToken (rangeTokens s)

/-- Resolve one Python slice index against a list length (negative
indices count from the end; results clamp to `[0, len]`). -/
def sliceIdx (i : Int) (len : Nat) : Nat :=
  if i < 0 then len - (-i).toNat else min i.toNat len

/-- `row[n:m]` on a list (an absent `m` is end-of-row). -/
def pySliceGet (row : List Cell) (n : Int) (m : Option Int) : List Cell :=
  let a := sliceIdx n row.length
  let b := match m with
    | Option.none => row.length
    | Option.some j => sliceIdx j row.length
  (row.drop a).take (b - a)

/-- `row[n:m] = repl` on a list: replace the addressed slice (for an
inverted slice, insert at the start position without deleting). -/
def pySliceSet (row : List Cell) (n : Int) (m : Option Int) (repl : List Cell) :
    List Cell :=
  let a := sliceIdx n row.length
  let b := match m with
    | Option.none => row.length
    | Option.some j => sliceIdx j row.length
  row.take a ++ repl ++ row.drop (max a b)

/-- Python truthiness of a cell (`if x` in the join's filter): empty
strings, zero numbers and `None` are falsy. -/
def truthy : Cell → Bool
  | .str s => !s.isEmpty
  | .int n => n != 0
  | .float (.fin m _) => m != 0
  | .float _ => true
  | .none => false

def cellIsStr : Cell → Bool
  | .str _ => true
  | _ => false

def cellStr : Cell → String
  | .str s => s
  | _ => ""

/-- `sep.join(xs)`. -/
def joinSep (sep : String) : List String → String
  | [] => ""
  | [x] => x
  | x :: y :: xs => x ++ sep ++ joinSep sep (y :: xs)

/-- One `--join` range applied to a row, from
`row[n:m] = [opt.joinchar.join([x for x in row[n:m] if x])]`:
the truthy cells of the slice are joined; `str.join` raises `TypeError`
when one of them is not a string. -/
def applyJoin (sep : String) (r : FieldRange) (row : List Cell) :
    Except String (List Cell) :=
  let kept := (pySliceGet row r.1 r.2).filter truthy
  if kept.all cellIsStr then
    .ok (pySliceSet row r.1 r.2 [.str (joinSep sep (kept.map cellStr))])
  else
    .error "TypeError: sequence item expected str instance"

/-- The `for n, m in opt.join_fields:` loop.  The list given here is
`opt.join_fields` as cooked at configuration time, i.e. the parsed
ranges already reversed. -/
def joinStage (sep : String) (ranges : List FieldRange) (row : List Cell) :
    Except String (List Cell) :=
  ranges.foldlM (fun acc r => applyJoin sep r acc) row

/-- The `--keep` loop: concatenate the requested slices. -/
def keepStage (ranges : List FieldRange) (row : List Cell) : List Cell :=
  ranges.foldl (fun acc r => acc ++ pySliceGet row r.1 r.2) []

/-- The pipeline configuration cooked by `main` (negative
`--headings` values behave exactly like 0 against the 1-based row
counter, so the count is a `Nat` here).  `joinFields` holds
`opt.join_fields` after the configuration-time `reverse()`;
an empty `keep` list models the falsy `opt.keep`. -/
structure Cfg where
  headingLines : Nat
  joinChar : String
  joinFields : List FieldRange
  func : Option (Nat → List Cell → Option (List Cell))
  keep : List FieldRange

/-- The body of the `for row in reader:` loop for the row with 1-based
index `i`: coercion and the `--lambda` function on data rows only, then
joins, then keep.  `.ok Option.none` is a row dropped by the lambda. -/
def processRow (cfg : Cfg) (i : Nat) (row : List Cell) :
    Except String (Option (List Cell)) :=
  let step1 : Option (List Cell) :=
    if cfg.headingLines < i then
      let r1 := row.map numeric
      match cfg.func with
      | Option.some f => f (i - cfg.headingLines) r1
      | Option.none => Option.some r1
    else Option.some row
  match step1 with
  | Option.none => .ok Option.none
  | Option.some r1 =>
    match joinStage cfg.joinChar cfg.joinFields r1 with
    | .error e => .error e
    | .ok r2 =>
      let r3 := if cfg.keep.isEmpty then r2 else keepStage cfg.keep r2
      .ok (Option.some r3)

/-- The driver loop of `main`, with the writer modelled as the sequence
of rows handed to `writer.writerow`: the literal command-line row first
(if any), then each processed input row. -/
def driverLoop (cfg : Cfg) : Nat → List (List Cell) → List (List Cell) →
    Except String (List (List Cell))
  | _, acc, [] => .ok acc
  | i, acc, row :: rest =>
    match processRow cfg (i + 1) row with
    | .error e => .error e
    | .ok Option.none => driverLoop cfg (i + 1) acc rest
    | .ok (Option.some r) => driverLoop cfg (i + 1) (acc ++ [r]) rest

def driverRows (cfg : Cfg) (args : List String) (inputs : List (List Cell)) :
    Except String (List (List Cell)) :=
  driverLoop cfg 0 (if args.isEmpty then [] else [args.map Cell.str]) inputs

/-- Declarative form of the streamed output: the processed rows, in
input order, with dropped rows removed (`i` is the 1-based index of the
first row of `inputs`). -/
def streamSpec (cfg : Cfg) : Nat → List (List Cell) →
    Except String (List (List Cell))
  | _, [] => .ok []
  | i, row :: rest =>
    match processRow cfg i row with
    | .error e => .error e
    | .ok Option.none => streamSpec cfg (i + 1) rest
    | .ok (Option.some r) => (streamSpec cfg (i + 1) rest).map (r :: ·)

/-! ## TableWriter (fixed-width mode) -/

/-- `width(x)` from the source: character count of a string, length of
`str(x)` otherwise. -/
def cellWidth (c : Cell) : Nat := (pyStr c).length

def spaces (n : Nat) : List Char := List.replicate n ' '

/-- `"%*d"`-style right justification. -/
def padLeft (w : Nat) (s : String) : String :=
  String.mk (spaces (w - s.length) ++ s.data)

/-- `"%-*s"`-style left justification. -/
def padRight (w : Nat) (s : String) : String :=
  String.mk (s.data ++ spaces (w - s.length))

/-- Round-half-to-even division `n / d` (the rounding used by `%f`). -/
def rhe (n d : Nat) : Nat :=
  let q := n / d
  let r := n % d
  if 2 * r < d then q
  else if d < 2 * r then q + 1
  else if q % 2 == 0 then q else q + 1

/-- `"%f" % v`: the value rendered with exactly six fractional digits. -/
def floatF6 : PyFloat → String
  | .fin m e =>
    let N := m.natAbs
    let scaled := if e ≤ 6 then N * 10 ^ (6 - e) else rhe N (10 ^ (e - 6))
    let fd := natChars (scaled % 10 ^ 6)
    String.mk ((if m < 0 then ['-'] else []) ++ natChars (scaled / 10 ^ 6) ++
      '.' :: (List.replicate (6 - fd.length) '0' ++ fd))
  | .inf => "inf"
  | .ninf => "-inf"
  | .nan => "nan"

/-- `tabfmt(val, width)` from the source: integers and floats right
justified (`%*d`, `%*f`), everything else `str()`-ed and left
justified. -/
def tabfmt (c : Cell) (w : Nat) : String :=
  match c with
  | .int n => padLeft w (intStr n)
  | .float f => padLeft w (floatF6 f)
  | _ => padRight w (pyStr c)

/-- The three `--outfmt=table` styles. -/
inductive TStyle where
  | box
  | ascii
  | nosep
deriving DecidableEq

def colSep : TStyle → String
  | .box => " │ "
  | .ascii => " | "
  | .nosep => " "

def headSep : TStyle → String
  | .box => "─"
  | .ascii => "-"
  | .nosep => ""

/-- One character of the column separator transformed for the divider
line: `replace(" ", head_sep).replace("│", "┼").replace("|", "+")`
(the replacement chains touch disjoint characters, so a single pass is
exact). -/
def divChar (st : TStyle) (c : Char) : List Char :=
  if c == ' ' then (headSep st).data
  else if c == '│' then ['┼']
  else if c == '|' then ['+'] else [c]

def divSep (st : TStyle) : String :=
  String.mk ((colSep st).data.flatMap (divChar st))

def strRepeat (s : String) : Nat → String
  | 0 => ""
  | n + 1 => s ++ strRepeat s n

/-- `reduce(max, ws)` over a nonempty list (Python raises on an empty
one, which cannot happen here since the data list is nonempty). -/
def reduceMax : List Nat → Nat
  | [] => 0
  | w :: ws => ws.foldl max w

/-- The per-column widths of `writerows`: for each column index of the
first buffered row, the max width over all rows; a row shorter than the
first row raises `IndexError`. -/
def colWidths (data : List (List Cell)) (ncols : Nat) :
    Except String (List Nat) :=
  exMapM (fun c =>
    (exMapM (fun row =>
      match row[c]? with
      | Option.some v => Except.ok (cellWidth v)
      | Option.none => Except.error "IndexError") data).map reduceMax)
    (List.range ncols)

/-- The cells of one rendered line (`tabfmt(row[c], wid[c])` for
`c in range(len(row))`); a row longer than the width list raises
`IndexError`. -/
def lineCells (wid : List Nat) (row : List Cell) : Except String (List String) :=
  exMapM (fun c =>
    match row[c]?, wid[c]? with
    | Option.some v, Option.some w => Except.ok (tabfmt v w)
    | _, _ => Except.error "IndexError") (List.range row.length)

/-- The divider fields (`head_sep * wid[c]` for `c in range(len(row))`). -/
def divCells (st : TStyle) (wid : List Nat) (row : List Cell) :
    Except String (List String) :=
  exMapM (fun c =>
    match wid[c]? with
    | Option.some w => Except.ok (strRepeat (headSep st) w)
    | Option.none => Except.error "IndexError") (List.range row.length)

/-- The lines written for one buffered row: the data line, followed by a
divider when `heading_lines > 0 and r < heading_lines` and the style is
not `nosep` (`r` is the 0-based index of the row in the buffer). -/
def rowLines (st : TStyle) (hl : Nat) (wid : List Nat) (r : Nat)
    (row : List Cell) : Except String (List String) :=
  match lineCells wid row with
  | .error e => .error e
  | .ok cs =>
    if 0 < hl ∧ r < hl ∧ st ≠ .nosep then
      match divCells st wid row with
      | .error e => .error e
      | .ok ds => .ok [joinSep (colSep st) cs, joinSep (divSep st) ds]
    else .ok [joinSep (colSep st) cs]

def tableLinesAux (st : TStyle) (hl : Nat) (wid : List Nat) :
    Nat → List (List Cell) → Except String (List String)
  | _, [] => .ok []
  | r, row :: rest =>
    match rowLines st hl wid r row with
    | .error e => .error e
    | .ok ls => (tableLinesAux st hl wid (r + 1) rest).map (ls ++ ·)

/-- The non-markdown branch of `TableWriter.writerows()`: compute the
column widths from the whole buffer, then write each row (and heading
dividers) in order.  An empty buffer writes nothing. -/
def tableLines (st : TStyle) (hl : Nat) (data : List (List Cell)) :
    Except String (List String) :=
  match data with
  | [] => .ok []
  | d0 :: _ =>
    match colWidths data d0.length with
    | .error e => .error e
    | .ok wid => tableLinesAux st hl wid 0 data

/-- `TableWriter.writerow`: `None` cells are replaced by `none_as`
(the default `""`) as rows enter the buffer. -/
def tableBufferRow (row : List Cell) : List Cell :=
  row.map (fun v => if v = Cell.none then Cell.str "" else v)

/-! ## Claim-side definitions

The definitions below follow the words of the spec or of a claim (not
the source); each is compared with the corresponding source-derived
definition in the theorems. -/

/-- The failure condition asserted by claim C7 for one (stripped)
token: more than one `-`, or a numeric piece that is present but not a
valid integer.  A piece is "present" when the token form expects a
number there: the single piece of a dash-free token always is; in an
`N-M` token an empty piece means the bound is absent (it defaults). -/
def claimRangeTokenBad (t : List Char) : Bool :=
  if 2 ≤ t.count '-' then true
  else
    match splitOnChar '-' t with
    | [p] => (pyIntOfChars p).isNone
    | [p1, p2] =>
      (!p1.isEmpty && (pyIntOfChars p1).isNone) ||
      (!p2.isEmpty && (pyIntOfChars p2).isNone)
    | _ => false

/-- The side conditions of the amended claim C8 for one token: every
explicit `N` piece is at least 1, and in an `N-M` token with both
pieces explicit, `N ≤ M`. -/
def rangeTokenGood (t : List Char) : Bool :=
  match splitOnChar '-' t with
  | [p] =>
    match pyIntOfChars p with
    | Option.some k => decide (1 ≤ k)
    | Option.none => true
  | [p1, p2] =>
    (p1.isEmpty || (match pyIntOfChars p1 with
      | Option.some k => decide (1 ≤ k)
      | Option.none => true)) &&
    (p1.isEmpty || p2.isEmpty ||
      (match pyIntOfChars p1, pyIntOfChars p2 with
       | Option.some k1, Option.some k2 => decide (k1 ≤ k2)
       | _, _ => true))
  | _ => true

/-- The join behaviour asserted by claim C2: every cell of the slice
that is neither the empty string nor `None` contributes its string
form, and the stage never raises. -/
def joinClaim (sep : String) (r : FieldRange) (row : List Cell) : List Cell :=
  pySliceSet row r.1 r.2
    [.str (joinSep sep (((pySliceGet row r.1 r.2).filter
      (fun c => !(c == Cell.str "") && !(c == Cell.none))).map pyStr))]

/-- The join behaviour of the amended claim C2: the truthy cells of the
slice (not the empty string, not `None`, not a zero number) are joined;
if any of them is not a string the stage raises `TypeError`. -/
def joinSpecA (sep : String) (r : FieldRange) (row : List Cell) :
    Except String (List Cell) :=
  let slice := pySliceGet row r.1 r.2
  if slice.any (fun c => truthy c && !(cellIsStr c)) then
    .error "TypeError: sequence item expected str instance"
  else
    .ok (pySliceSet row r.1 r.2
      [.str (joinSep sep (slice.filterMap (fun c =>
        match c with
        | .str s => if s.isEmpty then Option.none else Option.some s
        | _ => Option.none)))])

/-- The coercion algorithm asserted by claim C5: if the pattern
matches, strip any single leading currency symbol and the grouping
separators, then try the integer and decimal parses; if the pattern
never matched, or neither parse succeeds, return the original string. -/
def numericClaimAlg (s : String) : Cell :=
  if reNumericMatches s then
    let c1 := match s.data with
      | [] => ([] : List Char)
      | c :: r => if currencyChars.contains c then r else c :: r
    let c2 := c1.filter (fun c => !(c == ','))
    match pyIntOfChars c2 with
    | Option.some n => .int n
    | Option.none =>
      match pyFloatOfChars c2 with
      | Option.some (.fin m e) =>
        if isIntD m e then .int (toIntD m e) else .float (.fin m e)
      | Option.some f => .float f
      | Option.none => .str s
  else .str s

/-- The coercion algorithm of the amended claim C5: the pattern gates
only the stripping, and only a dollar sign is stripped; the integer and
decimal parses are attempted whether or not the pattern matched; on
double failure the original string is returned. -/
def numericSpecA (s : String) : Cell :=
  let stripped := if (s.data.head? = Option.some '$') then s.data.tail else s.data
  let cleaned := if reNumericMatches s then
      stripped.filter (fun c => !(c == ',')) else s.data
  match pyIntOfChars cleaned with
  | Option.some n => .int n
  | Option.none =>
    match pyFloatOfChars cleaned with
    | Option.some (.fin m e) =>
      if isIntD m e then .int (toIntD m e) else .float (.fin m e)
    | Option.some f => .float f
    | Option.none => .str s

/-- Python `==` on cell values: numbers compare by numeric value across
`int`/`float`, `nan` is not equal to anything (itself included), and
values of unrelated kinds are unequal. -/
def pyEq : Cell → Cell → Bool
  | .str a, .str b => a == b
  | .int a, .int b => a == b
  | .int a, .float (.fin m e) => a * (10 : Int) ^ e == m
  | .float (.fin m e), .int a => m == a * (10 : Int) ^ e
  | .float (.fin m1 e1), .float (.fin m2 e2) =>
    m1 * (10 : Int) ^ e2 == m2 * (10 : Int) ^ e1
  | .float .inf, .float .inf => true
  | .float .ninf, .float .ninf => true
  | .none, .none => true
  | _, _ => false

/-- Numeric-value equality of cells: like `pyEq` but with `nan` equal
to itself (used to state value preservation, where Python's `nan != nan`
is beside the point). -/
def numValEq (a b : Cell) : Bool :=
  match a, b with
  | .float .nan, .float .nan => true
  | _, _ => pyEq a b

def cellIsFloat : Cell → Bool
  | .float _ => true
  | _ => false

/-- The value of a run of digit characters, accumulated onto `v`. -/
def digitsVal (v : Nat) (ds : List Char) : Nat :=
  ds.foldl (fun a c => a * 10 + digVal c) v

/-- The per-column width of claim C4: the max over the buffered rows of
the display width of that column's cell. -/
def widf (data : List (List Cell)) (c : Nat) : Nat :=
  reduceMax (data.map (fun row => cellWidth (row.getD c Cell.none)))

/-! ## Character and digit-string lemmas -/

theorem isDigit_ne {c : Char} (d : Char) (h : c.isDigit = true)
    (hd : d.isDigit = false) : c ≠ d := by
  intro e
  subst e
  rw [h] at hd
  cases hd

theorem digitChar_isDigit {d : Nat} (h : d < 10) :
    (digitChar d).isDigit = true := by
  interval_cases d <;> decide

theorem digVal_digitChar {d : Nat} (h : d < 10) : digVal (digitChar d) = d := by
  interval_cases d <;> decide

theorem wsChar_of_isDigit {c : Char} (h : c.isDigit = true) :
    wsChar c = false := by
  unfold wsChar
  simp only [Bool.or_eq_false_iff, beq_eq_false_iff_ne]
  exact ⟨⟨⟨⟨⟨isDigit_ne _ h (by decide), isDigit_ne _ h (by decide)⟩,
    isDigit_ne _ h (by decide)⟩, isDigit_ne _ h (by decide)⟩,
    isDigit_ne _ h (by decide)⟩, isDigit_ne _ h (by decide)⟩

theorem natCharsAux_congr :
    ∀ f1 f2 n, n < f1 → n < f2 → natCharsAux f1 n = natCharsAux f2 n := by
  intro f1
  induction f1 with
  | zero => intro f2 n h; omega
  | succ f ih =>
    intro f2 n h1 h2
    match f2, h2 with
    | f2 + 1, h2 =>
      show natCharsAux (f + 1) n = natCharsAux (f2 + 1) n
      unfold natCharsAux
      by_cases h10 : n < 10
      · simp [h10]
      · have hd : n / 10 < n := Nat.div_lt_self (by omega) (by omega)
        simp only [h10, if_false]
        rw [ih f2 (n / 10) (by omega) (by omega)]

theorem natChars_eq (n : Nat) :
    natChars n =
      if n < 10 then [digitChar n]
      else natChars (n / 10) ++ [digitChar (n % 10)] := by
  show natCharsAux (n + 1) n = _
  unfold natCharsAux
  by_cases h10 : n < 10
  · simp [h10]
  · have hd : n / 10 < n := Nat.div_lt_self (by omega) (by omega)
    simp only [h10, if_false]
    rw [natCharsAux_congr n (n / 10 + 1) (n / 10) (by omega) (by omega)]
    rfl

theorem natChars_isDigit : ∀ n c, c ∈ natChars n → c.isDigit = true := by
  intro n
  induction n using Nat.strong_induction_on with
  | _ n ih =>
    intro c hc
    rw [natChars_eq] at hc
    by_cases h10 : n < 10
    · simp only [h10, if_true, List.mem_singleton] at hc
      subst hc
      exact digitChar_isDigit h10
    · simp only [h10, if_false, List.mem_append, List.mem_singleton] at hc
      rcases hc with hc | hc
      · exact ih (n / 10) (Nat.div_lt_self (by omega) (by omega)) c hc
      · subst hc
        exact digitChar_isDigit (Nat.mod_lt _ (by omega))

theorem natChars_ne_nil (n : Nat) : natChars n ≠ [] := by
  rw [natChars_eq]
  by_cases h10 : n < 10 <;> simp [h10]

theorem digitsVal_append (v : Nat) (l1 l2 : List Char) :
    digitsVal v (l1 ++ l2) = digitsVal (digitsVal v l1) l2 :=
  List.foldl_append ..

theorem digitsVal_natChars :
    ∀ n v, digitsVal v (natChars n) = v * 10 ^ (natChars n).length + n := by
  intro n
  induction n using Nat.strong_induction_on with
  | _ n ih =>
    intro v
    rw [natChars_eq]
    by_cases h10 : n < 10
    · simp only [h10, if_true]
      show v * 10 + digVal (digitChar n) = v * 10 ^ 1 + n
      rw [digVal_digitChar h10]
      ring
    · simp only [h10, if_false]
      rw [digitsVal_append, ih (n / 10) (Nat.div_lt_self (by omega) (by omega)) v]
      show (v * 10 ^ (natChars (n / 10)).length + n / 10) * 10 +
          digVal (digitChar (n % 10)) = _
      rw [digVal_digitChar (Nat.mod_lt _ (by omega)), List.length_append,
        List.length_singleton, pow_succ]
      have := Nat.div_add_mod n 10
      ring_nf
      omega

theorem natChars_length_le :
    ∀ k n, n < 10 ^ k → 0 < k → (natChars n).length ≤ k := by
  intro k n
  induction n using Nat.strong_induction_on generalizing k with
  | _ n ih =>
    intro hn hk
    rw [natChars_eq]
    by_cases h10 : n < 10
    · simp only [h10, if_true, List.length_singleton]
      omega
    · simp only [h10, if_false, List.length_append, List.length_singleton]
      have hk2 : 2 ≤ k := by
        by_contra hc
        have : k = 1 := by omega
        subst this
        simp at hn
        omega
      have hd : n / 10 < 10 ^ (k - 1) := by
        rw [Nat.div_lt_iff_lt_mul (by omega)]
        calc n < 10 ^ k := hn
        _ = 10 ^ (k - 1) * 10 := by
            rw [← pow_succ]
            congr 1
            omega
      have := ih (n / 10) (Nat.div_lt_self (by omega) (by omega)) (k - 1) hd (by omega)
      omega

theorem digRun_digits :
    ∀ ds rest v k, (∀ c ∈ ds, c.isDigit = true) →
      (rest = [] ∨ ∃ c cs, rest = c :: cs ∧ c.isDigit = false ∧ c ≠ '_') →
      digRun (ds ++ rest) v k = (digitsVal v ds, k + ds.length, rest) := by
  intro ds
  induction ds with
  | nil =>
    intro rest v k _ hrest
    rcases hrest with rfl | ⟨c, cs, rfl, hc, hu⟩
    · rfl
    · show digRun (c :: cs) v k = (v, k, c :: cs)
      unfold digRun
      rw [hc]
      simp only [if_false, Bool.false_eq_true]
      have : (c == '_') = false := by
        simp [hu]
      rw [this]
      simp
  | cons d ds ih =>
    intro rest v k hds hrest
    have hd : d.isDigit = true := hds d (List.mem_cons_self ..)
    show digRun (d :: (ds ++ rest)) v k = _
    unfold digRun
    rw [hd]
    simp only [if_true]
    rw [ih rest (v * 10 + digVal d) (k + 1)
      (fun c hc => hds c (List.mem_cons_of_mem _ hc)) hrest]
    simp only [digitsVal, List.foldl_cons, List.length_cons, Prod.mk.injEq,
      true_and, and_true]
    omega

theorem digitsVal_replicate_zero (j : Nat) :
    digitsVal 0 (List.replicate j '0') = 0 := by
  induction j with
  | zero => rfl
  | succ j ih =>
    rw [List.replicate_succ]
    show digitsVal (0 * 10 + digVal '0') (List.replicate j '0') = 0
    simpa using ih

theorem dropLeadWs_eq_self {l : List Char} (h : ∀ c ∈ l, wsChar c = false) :
    dropLeadWs l = l := by
  cases l with
  | nil => rfl
  | cons c cs =>
    unfold dropLeadWs
    rw [h c (List.mem_cons_self ..)]
    simp

theorem pyStrip_eq_self {l : List Char} (h : ∀ c ∈ l, wsChar c = false) :
    pyStripChars l = l := by
  unfold pyStripChars
  rw [dropLeadWs_eq_self h, dropLeadWs_eq_self (fun c hc => h c (by
    rw [List.mem_reverse] at hc
    exact hc)), List.reverse_reverse]

theorem signedBody_other {c : Char} {cs : List Char} (h1 : c ≠ '-')
    (h2 : c ≠ '+') : signedBody (c :: cs) = (false, c :: cs) := by
  unfold signedBody
  simp [h1, h2]

theorem natChars_not_ws {n : Nat} : ∀ c ∈ natChars n, wsChar c = false :=
  fun c hc => wsChar_of_isDigit (natChars_isDigit n c hc)

theorem digRun_natChars (n : Nat) (v k : Nat) (rest : List Char)
    (hrest : rest = [] ∨ ∃ c cs, rest = c :: cs ∧ c.isDigit = false ∧ c ≠ '_') :
    digRun (natChars n ++ rest) v k =
      (v * 10 ^ (natChars n).length + n, k + (natChars n).length, rest) := by
  rw [digRun_digits (natChars n) rest v k (natChars_isDigit n) hrest,
    digitsVal_natChars]

theorem natChars_length_ne_zero (n : Nat) : ((natChars n).length == 0) = false := by
  simp only [beq_eq_false_iff_ne, ne_eq, List.length_eq_zero]
  exact natChars_ne_nil n

theorem pyInt_intChars (n : Int) : pyIntOfChars (intChars n) = Option.some n := by
  unfold pyIntOfChars intChars
  by_cases hn : n < 0
  · simp only [hn, if_true]
    rw [pyStrip_eq_self (by
      intro c hc
      rcases List.mem_cons.mp hc with rfl | hc
      · decide
      · exact natChars_not_ws c hc)]
    show (match digRun (signedBody ('-' :: natChars n.natAbs)).2 0 0 with
      | (v, k, []) => if k == 0 then Option.none
          else Option.some (if (signedBody ('-' :: natChars n.natAbs)).1
            then -(v : Int) else (v : Int))
      | _ => Option.none) = Option.some n
    have hsb : signedBody ('-' :: natChars n.natAbs) = (true, natChars n.natAbs) := by
      unfold signedBody
      simp
    rw [hsb]
    have := digRun_natChars n.natAbs 0 0 [] (Or.inl rfl)
    rw [List.append_nil] at this
    rw [this]
    simp only [Nat.zero_add, natChars_length_ne_zero, if_false, zero_mul,
      Nat.zero_add]
    show Option.some (-(n.natAbs : Int)) = Option.some n
    congr 1
    omega
  · simp only [hn, if_false]
    rw [pyStrip_eq_self natChars_not_ws]
    rcases List.exists_cons_of_ne_nil (natChars_ne_nil n.natAbs) with ⟨d, ds, hds⟩
    have hd : d.isDigit = true := by
      apply natChars_isDigit n.natAbs
      rw [hds]
      exact List.mem_cons_self ..
    have hsb : signedBody (natChars n.natAbs) = (false, natChars n.natAbs) := by
      rw [hds]
      exact signedBody_other (isDigit_ne _ hd (by decide)) (isDigit_ne _ hd (by decide))
    show (match digRun (signedBody (natChars n.natAbs)).2 0 0 with
      | (v, k, []) => if k == 0 then Option.none
          else Option.some (if (signedBody (natChars n.natAbs)).1
            then -(v : Int) else (v : Int))
      | _ => Option.none) = Option.some n
    rw [hsb]
    have := digRun_natChars n.natAbs 0 0 [] (Or.inl rfl)
    rw [List.append_nil] at this
    rw [this]
    simp only [Nat.zero_add, natChars_length_ne_zero, if_false, zero_mul,
      Nat.zero_add]
    show Option.some ((n.natAbs : Int)) = Option.some n
    congr 1
    omega

/-! ## Normalization lemmas for finite floats -/

theorem normD_val : ∀ e (m : Int),
    (normD m e).1 * (10 : Int) ^ e = m * (10 : Int) ^ (normD m e).2 := by
  intro e
  induction e with
  | zero => intro m; rfl
  | succ e ih =>
    intro m
    show (normD m (e + 1)).1 * (10 : Int) ^ (e + 1) = _
    unfold normD
    by_cases h10 : m % 10 = 0
    · have hdvd : (10 : Int) ∣ m := Int.dvd_of_emod_eq_zero h10
      simp only [h10, beq_self_eq_true, if_true]
      have := ih (m / 10)
      have hm : m / 10 * 10 = m := Int.ediv_mul_cancel hdvd
      calc (normD (m / 10) e).1 * (10 : Int) ^ (e + 1)
          = (normD (m / 10) e).1 * (10 : Int) ^ e * 10 := by ring
        _ = m / 10 * (10 : Int) ^ (normD (m / 10) e).2 * 10 := by rw [this]
        _ = m / 10 * 10 * (10 : Int) ^ (normD (m / 10) e).2 := by ring
        _ = m * (10 : Int) ^ (normD (m / 10) e).2 := by rw [hm]
    · have : (m % 10 == 0) = false := by simpa using h10
      simp only [this, Bool.false_eq_true, if_false]

theorem isIntD_normD : ∀ e (m : Int),
    isIntD (normD m e).1 (normD m e).2 = isIntD m e := by
  intro e
  induction e with
  | zero => intro m; rfl
  | succ e ih =>
    intro m
    show isIntD (normD m (e + 1)).1 (normD m (e + 1)).2 = _
    unfold normD
    by_cases h10 : m % 10 = 0
    · have hdvd : (10 : Int) ∣ m := Int.dvd_of_emod_eq_zero h10
      simp only [h10, beq_self_eq_true, if_true]
      rw [ih (m / 10)]
      unfold isIntD
      rcases hdvd with ⟨m', rfl⟩
      have h1 : 10 * m' / 10 = m' := by
        rw [Int.mul_ediv_cancel_left _ (by norm_num)]
      rw [h1]
      by_cases hd : (10 : Int) ^ e ∣ m'
      · have hd2 : (10 : Int) ^ (e + 1) ∣ 10 * m' := by
          rw [pow_succ]
          rcases hd with ⟨c, rfl⟩
          exact ⟨c, by ring⟩
        rw [Int.emod_eq_zero_of_dvd hd, Int.emod_eq_zero_of_dvd hd2]
      · have hd2 : ¬ (10 : Int) ^ (e + 1) ∣ 10 * m' := by
          intro ⟨c, hc⟩
          apply hd
          refine ⟨c, ?_⟩
          have : (10 : Int) * m' = 10 * ((10 : Int) ^ e * c) := by
            rw [hc, pow_succ]
            ring
          have h10ne : (10 : Int) ≠ 0 := by norm_num
          exact mul_left_cancel₀ h10ne this
        have e1 : ((10 : Int) ^ e ∣ m') = False := by simp [hd]
        have e2 : ((10 : Int) ^ (e + 1) ∣ 10 * m') = False := by simp [hd2]
        simp only [beq_eq_false_iff_ne, ne_eq] at *
        have g1 : (m' % (10 : Int) ^ e == 0) = false := by
          simp only [beq_eq_false_iff_ne, ne_eq]
          intro hc
          exact hd (Int.dvd_of_emod_eq_zero hc)
        have g2 : ((10 * m') % (10 : Int) ^ (e + 1) == 0) = false := by
          simp only [beq_eq_false_iff_ne, ne_eq]
          intro hc
          exact hd2 (Int.dvd_of_emod_eq_zero hc)
        rw [g1, g2]
    · have : (m % 10 == 0) = false := by simpa using h10
      simp only [this, Bool.false_eq_true, if_false]

theorem normD_stopped : ∀ e (m : Int),
    (normD m e).2 = 0 ∨ (normD m e).1 % 10 ≠ 0 := by
  intro e
  induction e with
  | zero => intro m; exact Or.inl rfl
  | succ e ih =>
    intro m
    unfold normD
    by_cases h10 : m % 10 = 0
    · simp only [h10, beq_self_eq_true, if_true]
      exact ih (m / 10)
    · have : (m % 10 == 0) = false := by simpa using h10
      simp only [this, Bool.false_eq_true, if_false]
      exact Or.inr h10

theorem normD_snd_zero_of_isInt {m : Int} {e : Nat} (h : isIntD m e = true) :
    (normD m e).2 = 0 := by
  rcases normD_stopped e m with h0 | hne
  · exact h0
  · by_contra hc
    have hint : isIntD (normD m e).1 (normD m e).2 = true := by
      rw [isIntD_normD]; exact h
    unfold isIntD at hint
    rw [beq_iff_eq] at hint
    have hdvd : (10 : Int) ^ (normD m e).2 ∣ (normD m e).1 :=
      Int.dvd_of_emod_eq_zero hint
    have h10 : (10 : Int) ∣ (normD m e).1 := by
      refine dvd_trans ?_ hdvd
      have : (normD m e).2 ≠ 0 := hc
      rcases Nat.exists_eq_succ_of_ne_zero this with ⟨k, hk⟩
      rw [hk, pow_succ]
      exact Dvd.intro_left _ rfl
    exact hne (Int.emod_eq_zero_of_dvd h10)

theorem normD_snd_ne_zero_of_not_int {m : Int} {e : Nat}
    (h : isIntD m e = false) : (normD m e).2 ≠ 0 := by
  intro hc
  have hint : isIntD (normD m e).1 (normD m e).2 = isIntD m e := isIntD_normD e m
  rw [hc] at hint
  unfold isIntD at hint
  simp only [pow_zero, Int.emod_one, beq_self_eq_true] at hint
  unfold isIntD at h
  rw [h] at hint
  exact Bool.noConfusion hint

/-! ## The `numeric` cascade on canonical renderings -/

theorem mem_natChars_digitChar :
    ∀ n c, c ∈ natChars n → ∃ d, d < 10 ∧ c = digitChar d := by
  intro n
  induction n using Nat.strong_induction_on with
  | _ n ih =>
    intro c hc
    rw [natChars_eq] at hc
    by_cases h10 : n < 10
    · simp only [h10, if_true, List.mem_singleton] at hc
      exact ⟨n, h10, hc⟩
    · simp only [h10, if_false, List.mem_append, List.mem_singleton] at hc
      rcases hc with hc | hc
      · exact ih (n / 10) (Nat.div_lt_self (by omega) (by omega)) c hc
      · exact ⟨n % 10, Nat.mod_lt _ (by omega), hc⟩

theorem contains_eq_false_of_not_mem {l : List Char} {x : Char}
    (h : x ∉ l) : l.contains x = false := by
  simp [List.contains, List.elem_eq_mem, h]

/-- Character inventory of `decChars`: minus sign, dot, or a digit. -/
theorem decChars_inventory (m : Int) (e : Nat) :
    ∀ c ∈ decChars m e, c = '-' ∨ c = '.' ∨ c.isDigit = true := by
  intro c hc
  unfold decChars at hc
  by_cases he : e = 0
  · subst he
    simp only [beq_self_eq_true, if_true, List.mem_append, List.mem_singleton] at hc
    rcases hc with (hc | hc) | hc
    · left
      by_cases hm : m < 0
      · simp [hm] at hc
        simp [hc]
      · simp [hm] at hc
    · right; right; exact natChars_isDigit _ _ hc
    · rcases List.mem_cons.mp hc with rfl | hc
      · right; left; rfl
      · rcases List.mem_singleton.mp hc with rfl
        right; right; decide
  · have : (e == 0) = false := by simpa using he
    simp only [this, Bool.false_eq_true, if_false, List.mem_append,
      List.mem_cons] at hc
    rcases hc with (hc | hc) | hc | hc | hc
    · left
      by_cases hm : m < 0
      · simp [hm] at hc
        simp [hc]
      · simp [hm] at hc
    · right; right; exact natChars_isDigit _ _ hc
    · right; left; exact hc
    · right; right
      rcases List.eq_of_mem_replicate hc with rfl
      decide
    · right; right; exact natChars_isDigit _ _ hc

theorem intChars_inventory (n : Int) :
    ∀ c ∈ intChars n, c = '-' ∨ c.isDigit = true := by
  intro c hc
  unfold intChars at hc
  by_cases hn : n < 0
  · simp only [hn, if_true] at hc
    rcases List.mem_cons.mp hc with rfl | hc
    · left; rfl
    · right; exact natChars_isDigit _ _ hc
  · simp only [hn, if_false] at hc
    right; exact natChars_isDigit _ _ hc

theorem mutChars_eq_self {l : List Char} (h1 : l.head? ≠ Option.some '$')
    (h2 : ',' ∉ l) : mutChars l = l := by
  unfold mutChars
  have hh : (l.head? = Option.some '$') = False := by simp [h1]
  simp only [hh, if_false]
  rw [contains_eq_false_of_not_mem h2]
  simp

/-- When the working string has no leading dollar sign and no comma,
the regex-gated mutation is the identity and `numeric`'s cascade acts
on the raw characters. -/
theorem numericCore_plain (y0 : String) (x : Cell)
    (h1 : y0.data.head? ≠ Option.some '$') (h2 : ',' ∉ y0.data) :
    numericCore y0 x =
      match pyIntOfChars y0.data with
      | Option.some n => .int n
      | Option.none =>
        match pyFloatOfChars y0.data with
        | Option.some f =>
          match f with
          | .fin m e => if isIntD m e then .int (toIntD m e) else .float (.fin m e)
          | g => .float g
        | Option.none => x := by
  unfold numericCore
  rw [mutChars_eq_self h1 h2, ite_self]

theorem mem_of_head? {l : List Char} {a : Char}
    (h : l.head? = Option.some a) : a ∈ l := by
  cases l with
  | nil => exact Option.noConfusion h
  | cons c cs =>
    simp only [List.head?_cons, Option.some.injEq] at h
    subst h
    exact List.mem_cons_self ..

theorem digitsVal_replicate (v j : Nat) :
    digitsVal v (List.replicate j '0') = v * 10 ^ j := by
  induction j generalizing v with
  | zero => simp [digitsVal]
  | succ j ih =>
    rw [List.replicate_succ]
    show digitsVal (v * 10 + digVal '0') (List.replicate j '0') = _
    rw [ih]
    show (v * 10 + 0) * 10 ^ j = v * 10 ^ (j + 1)
    ring

theorem replicate_zero_isDigit (j : Nat) :
    ∀ c ∈ List.replicate j '0', c.isDigit = true := by
  intro c hc
  rcases List.eq_of_mem_replicate hc with rfl
  decide

theorem floatMantissa_dot (A : Nat) (B : List Char) (neg : Bool)
    (hB : ∀ c ∈ B, c.isDigit = true) :
    floatMantissa neg (natChars A ++ '.' :: B) =
      floatExp neg (digitsVal A B) B.length ((natChars A).length + B.length) [] := by
  have h1 : digRun (natChars A ++ '.' :: B) 0 0 =
      (A, (natChars A).length, '.' :: B) := by
    rw [digRun_natChars A 0 0 ('.' :: B) (Or.inr ⟨'.', B, rfl, by decide, by decide⟩)]
    simp
  have h2 : digRun B A 0 = (digitsVal A B, B.length, []) := by
    have := digRun_digits B [] A 0 hB (Or.inl rfl)
    rw [List.append_nil] at this
    rw [this]
    simp
  unfold floatMantissa
  rw [h1]
  simp only [if_true]
  rw [h2]

theorem pyInt_shape (neg : Bool) (A : Nat) (B : List Char)
    (hB : ∀ c ∈ B, wsChar c = false) :
    pyIntOfChars ((if neg then ['-'] else []) ++ natChars A ++ '.' :: B) =
      Option.none := by
  have hws : ∀ c ∈ (if neg then ['-'] else []) ++ natChars A ++ '.' :: B,
      wsChar c = false := by
    intro c hc
    have h3 : c = '-' ∨ c ∈ natChars A ∨ c = '.' ∨ c ∈ B := by
      cases neg <;> simp at hc <;> tauto
    rcases h3 with rfl | h3 | rfl | h3
    · decide
    · exact natChars_not_ws c h3
    · decide
    · exact hB c h3
  have hrun : digRun (natChars A ++ '.' :: B) 0 0 =
      (A, (natChars A).length, '.' :: B) := by
    rw [digRun_natChars A 0 0 ('.' :: B) (Or.inr ⟨'.', B, rfl, by decide, by decide⟩)]
    simp
  unfold pyIntOfChars
  rw [pyStrip_eq_self hws]
  cases neg with
  | true =>
    simp only [if_true]
    have hsb : signedBody ('-' :: (natChars A ++ '.' :: B)) =
        (true, natChars A ++ '.' :: B) := by
      unfold signedBody
      simp
    show (match digRun (signedBody (('-' :: (natChars A ++ '.' :: B)))).2 0 0 with
      | (v, k, []) => if k == 0 then Option.none
          else Option.some (if (signedBody (('-' :: (natChars A ++ '.' :: B)))).1
            then -(v : Int) else (v : Int))
      | _ => Option.none) = Option.none
    rw [hsb, hrun]
  | false =>
    simp only [if_false, List.nil_append]
    rcases List.exists_cons_of_ne_nil (natChars_ne_nil A) with ⟨d, ds, hds⟩
    have hd : d.isDigit = true := by
      apply natChars_isDigit A
      rw [hds]
      exact List.mem_cons_self ..
    have hsb : signedBody (natChars A ++ '.' :: B) =
        (false, natChars A ++ '.' :: B) := by
      rw [hds, List.cons_append]
      exact signedBody_other (isDigit_ne _ hd (by decide)) (isDigit_ne _ hd (by decide))
    show (match digRun (signedBody (natChars A ++ '.' :: B)).2 0 0 with
      | (v, k, []) => if k == 0 then Option.none
          else Option.some (if (signedBody (natChars A ++ '.' :: B)).1
            then -(v : Int) else (v : Int))
      | _ => Option.none) = Option.none
    rw [hsb, hrun]

theorem digitChar_toLower {d : Nat} (h : d < 10) :
    (digitChar d).toLower = digitChar d := by
  interval_cases d <;> decide

theorem digitChar_ne_i {d : Nat} (h : d < 10) : digitChar d ≠ 'i' := by
  interval_cases d <;> decide

theorem digitChar_ne_n {d : Nat} (h : d < 10) : digitChar d ≠ 'n' := by
  interval_cases d <;> decide

theorem pyFloat_shape (neg : Bool) (A : Nat) (B : List Char)
    (hB : ∀ c ∈ B, c.isDigit = true) :
    pyFloatOfChars ((if neg then ['-'] else []) ++ natChars A ++ '.' :: B) =
      floatExp neg (digitsVal A B) B.length ((natChars A).length + B.length) [] := by
  have hws : ∀ c ∈ (if neg then ['-'] else []) ++ natChars A ++ '.' :: B,
      wsChar c = false := by
    intro c hc
    have h3 : c = '-' ∨ c ∈ natChars A ∨ c = '.' ∨ c ∈ B := by
      cases neg <;> simp at hc <;> tauto
    rcases h3 with rfl | h3 | rfl | h3
    · decide
    · exact natChars_not_ws c h3
    · decide
    · exact wsChar_of_isDigit (hB c h3)
  rcases List.exists_cons_of_ne_nil (natChars_ne_nil A) with ⟨d, ds, hds⟩
  rcases mem_natChars_digitChar A d (by rw [hds]; exact List.mem_cons_self ..)
    with ⟨dv, hdv, rfl⟩
  have hlow : lowChars (natChars A ++ '.' :: B) =
      digitChar dv :: lowChars (ds ++ '.' :: B) := by
    rw [hds, List.cons_append]
    unfold lowChars
    rw [List.map_cons, digitChar_toLower hdv]
  have hg1 : (lowChars (natChars A ++ '.' :: B) = ['i', 'n', 'f']) = False := by
    simp only [hlow, List.cons.injEq, eq_iff_iff, iff_false]
    intro ⟨hh, _⟩
    exact digitChar_ne_i hdv hh
  have hg2 : (lowChars (natChars A ++ '.' :: B) =
      ['i', 'n', 'f', 'i', 'n', 'i', 't', 'y']) = False := by
    simp only [hlow, List.cons.injEq, eq_iff_iff, iff_false]
    intro ⟨hh, _⟩
    exact digitChar_ne_i hdv hh
  have hg3 : (lowChars (natChars A ++ '.' :: B) = ['n', 'a', 'n']) = False := by
    simp only [hlow, List.cons.injEq, eq_iff_iff, iff_false]
    intro ⟨hh, _⟩
    exact digitChar_ne_n hdv hh
  unfold pyFloatOfChars
  rw [pyStrip_eq_self hws]
  cases neg with
  | true =>
    simp only [if_true]
    have hsb : signedBody ('-' :: (natChars A ++ '.' :: B)) =
        (true, natChars A ++ '.' :: B) := by
      unfold signedBody
      simp
    show (let p := signedBody ('-' :: (natChars A ++ '.' :: B))
      let low := lowChars p.2
      if low = ['i', 'n', 'f'] || low = ['i', 'n', 'f', 'i', 'n', 'i', 't', 'y'] then
        Option.some (if p.1 then .ninf else .inf)
      else if low = ['n', 'a', 'n'] then Option.some PyFloat.nan
      else floatMantissa p.1 p.2) = _
    rw [hsb]
    simp only [hg1, hg2, hg3, decide_False, Bool.or_self, Bool.false_eq_true,
      if_false]
    exact floatMantissa_dot A B true hB
  | false =>
    simp only [if_false, List.nil_append]
    have hd : (digitChar dv).isDigit = true := digitChar_isDigit hdv
    have hsb : signedBody (natChars A ++ '.' :: B) =
        (false, natChars A ++ '.' :: B) := by
      rw [hds, List.cons_append]
      exact signedBody_other (isDigit_ne _ hd (by decide)) (isDigit_ne _ hd (by decide))
    show (let p := signedBody (natChars A ++ '.' :: B)
      let low := lowChars p.2
      if low = ['i', 'n', 'f'] || low = ['i', 'n', 'f', 'i', 'n', 'i', 't', 'y'] then
        Option.some (if p.1 then .ninf else .inf)
      else if low = ['n', 'a', 'n'] then Option.some PyFloat.nan
      else floatMantissa p.1 p.2) = _
    rw [hsb]
    simp only [hg1, hg2, hg3, decide_False, Bool.or_self, Bool.false_eq_true,
      if_false]
    exact floatMantissa_dot A B false hB

theorem pyInt_decChars (m : Int) (e : Nat) :
    pyIntOfChars (decChars m e) = Option.none := by
  unfold decChars
  by_cases he : e = 0
  · subst he
    simp only [beq_self_eq_true, if_true]
    have hB : ∀ c ∈ ['0'], wsChar c = false := by
      intro c hc
      rcases List.mem_singleton.mp hc with rfl
      decide
    by_cases hm : m < 0
    · rw [if_pos hm]
      exact pyInt_shape true m.natAbs ['0'] hB
    · rw [if_neg hm]
      exact pyInt_shape false m.natAbs ['0'] hB
  · have heb : (e == 0) = false := by simpa using he
    simp only [heb, Bool.false_eq_true, if_false]
    have hB : ∀ c ∈ List.replicate
          (e - (natChars (m.natAbs % 10 ^ e)).length) '0' ++
          natChars (m.natAbs % 10 ^ e), wsChar c = false := by
      intro c hc
      rcases List.mem_append.mp hc with hc | hc
      · rcases List.eq_of_mem_replicate hc with rfl; decide
      · exact natChars_not_ws c hc
    by_cases hm : m < 0
    · rw [if_pos hm]
      exact pyInt_shape true (m.natAbs / 10 ^ e) _ hB
    · rw [if_neg hm]
      exact pyInt_shape false (m.natAbs / 10 ^ e) _ hB

theorem floatExp_nil (neg : Bool) (M k2 ktot : Nat) (h : ktot ≠ 0) :
    floatExp neg M k2 ktot [] = Option.some (mkFinDec neg M 0 k2) := by
  unfold floatExp
  have h2 : (ktot == 0) = false := by simpa using h
  rw [h2]
  rfl

theorem mkFinDec_pos_exp_zero (neg : Bool) (M : Nat) (k : Nat) (hk : k ≠ 0) :
    mkFinDec neg M 0 k = .fin (if neg then -(M : Int) else (M : Int)) k := by
  unfold mkFinDec
  have h1 : ¬ ((k : Int) ≤ 0) := by omega
  rw [if_neg h1]
  have h2 : ((k : Int) - 0).toNat = k := by omega
  rw [h2]

theorem pyFloat_decChars_pos (m : Int) (e : Nat) (he : e ≠ 0) :
    pyFloatOfChars (decChars m e) = Option.some (.fin m e) := by
  have hfplt : m.natAbs % 10 ^ e < 10 ^ e := Nat.mod_lt _ (by positivity)
  have hlen : (natChars (m.natAbs % 10 ^ e)).length ≤ e :=
    natChars_length_le e _ hfplt (by omega)
  set z := e - (natChars (m.natAbs % 10 ^ e)).length with hz
  set B := List.replicate z '0' ++ natChars (m.natAbs % 10 ^ e) with hBdef
  have hB : ∀ c ∈ B, c.isDigit = true := by
    intro c hc
    rcases List.mem_append.mp hc with hc | hc
    · rcases List.eq_of_mem_replicate hc with rfl; decide
    · exact natChars_isDigit _ c hc
  have hze : z + (natChars (m.natAbs % 10 ^ e)).length = e := by omega
  have hval : digitsVal (m.natAbs / 10 ^ e) B = m.natAbs := by
    rw [hBdef, digitsVal_append, digitsVal_replicate, digitsVal_natChars,
      mul_assoc, ← pow_add, hze, Nat.mul_comm]
    exact Nat.div_add_mod _ _
  have hBlen : B.length = e := by
    rw [hBdef, List.length_append, List.length_replicate]
    omega
  have hktot : (natChars (m.natAbs / 10 ^ e)).length + B.length ≠ 0 := by
    rw [hBlen]
    omega
  unfold decChars
  have heb : (e == 0) = false := by simpa using he
  simp only [heb, Bool.false_eq_true, if_false]
  by_cases hm : m < 0
  · rw [if_pos hm]
    have h := pyFloat_shape true (m.natAbs / 10 ^ e) B hB
    rw [hval, hBlen] at h
    rw [show (['-'] : List Char) ++ natChars (m.natAbs / 10 ^ e) ++
      '.' :: B = (if (true : Bool) then ['-'] else []) ++
      natChars (m.natAbs / 10 ^ e) ++ '.' :: B from rfl, h,
      floatExp_nil _ _ _ _ (by omega),
      mkFinDec_pos_exp_zero _ _ _ he]
    simp only [Option.some.injEq, PyFloat.fin.injEq]
    refine ⟨?_, by trivial⟩
    show -(m.natAbs : Int) = m
    omega
  · rw [if_neg hm]
    have h := pyFloat_shape false (m.natAbs / 10 ^ e) B hB
    rw [hval, hBlen] at h
    rw [show ([] : List Char) ++ natChars (m.natAbs / 10 ^ e) ++
      '.' :: B = (if (false : Bool) then ['-'] else []) ++
      natChars (m.natAbs / 10 ^ e) ++ '.' :: B from rfl, h,
      floatExp_nil _ _ _ _ (by omega),
      mkFinDec_pos_exp_zero _ _ _ he]
    simp only [Option.some.injEq, PyFloat.fin.injEq]
    refine ⟨?_, by trivial⟩
    show (m.natAbs : Int) = m
    omega

theorem pyFloat_decChars_zero (m : Int) :
    pyFloatOfChars (decChars m 0) = Option.some (.fin (m * 10) 1) := by
  have hB : ∀ c ∈ ['0'], Char.isDigit c = true := by
    intro c hc
    rcases List.mem_singleton.mp hc with rfl
    decide
  have hval : digitsVal m.natAbs ['0'] = m.natAbs * 10 := by
    show m.natAbs * 10 + digVal '0' = m.natAbs * 10
    have hdv : digVal '0' = 0 := rfl
    omega
  unfold decChars
  simp only [beq_self_eq_true, if_true]
  by_cases hm : m < 0
  · rw [if_pos hm]
    have h := pyFloat_shape true m.natAbs ['0'] hB
    rw [hval] at h
    rw [show (['-'] : List Char) ++ natChars m.natAbs ++ ['.', '0'] =
      (if (true : Bool) then ['-'] else []) ++ natChars m.natAbs ++
      '.' :: ['0'] from rfl, h,
      floatExp_nil _ _ _ _ (by simp),
      mkFinDec_pos_exp_zero _ _ _ (by decide)]
    simp only [Option.some.injEq, PyFloat.fin.injEq]
    refine ⟨?_, by trivial⟩
    show -((m.natAbs * 10 : Nat) : Int) = m * 10
    rw [Nat.cast_mul]
    omega
  · rw [if_neg hm]
    have h := pyFloat_shape false m.natAbs ['0'] hB
    rw [hval] at h
    rw [show ([] : List Char) ++ natChars m.natAbs ++ ['.', '0'] =
      (if (false : Bool) then ['-'] else []) ++ natChars m.natAbs ++
      '.' :: ['0'] from rfl, h,
      floatExp_nil _ _ _ _ (by simp),
      mkFinDec_pos_exp_zero _ _ _ (by decide)]
    simp only [Option.some.injEq, PyFloat.fin.injEq]
    refine ⟨?_, by trivial⟩
    show ((m.natAbs * 10 : Nat) : Int) = m * 10
    rw [Nat.cast_mul]
    omega

theorem numericCore_intStr (x : Cell) (n : Int) :
    numericCore (intStr n) x = .int n := by
  have h1 : (intStr n).data.head? ≠ Option.some '$' := by
    intro h
    rcases intChars_inventory n '$' (mem_of_head? h) with h | h
    · exact absurd h (by decide)
    · exact absurd h (by decide)
  have h2 : ',' ∉ (intStr n).data := by
    intro h
    rcases intChars_inventory n ',' h with h | h
    · exact absurd h (by decide)
    · exact absurd h (by decide)
  rw [numericCore_plain _ _ h1 h2]
  show (match pyIntOfChars (intChars n) with
    | Option.some n => Cell.int n
    | Option.none =>
      match pyFloatOfChars (intChars n) with
      | Option.some f =>
        match f with
        | .fin m e => if isIntD m e then .int (toIntD m e) else .float (.fin m e)
        | g => .float g
      | Option.none => x) = Cell.int n
  rw [pyInt_intChars]

theorem numericCore_finStr (x : Cell) (m : Int) (e : Nat) :
    numericCore (pyFloatStr (.fin m e)) x =
      if isIntD m e then .int (toIntD m e)
      else .float (.fin (normD m e).1 (normD m e).2) := by
  have h1 : (pyFloatStr (.fin m e)).data.head? ≠ Option.some '$' := by
    intro h
    rcases decChars_inventory (normD m e).1 (normD m e).2 '$' (mem_of_head? h)
      with h | h | h
    · exact absurd h (by decide)
    · exact absurd h (by decide)
    · exact absurd h (by decide)
  have h2 : ',' ∉ (pyFloatStr (.fin m e)).data := by
    intro h
    rcases decChars_inventory (normD m e).1 (normD m e).2 ',' h with h | h | h
    · exact absurd h (by decide)
    · exact absurd h (by decide)
    · exact absurd h (by decide)
  rw [numericCore_plain _ _ h1 h2]
  show (match pyIntOfChars (decChars (normD m e).1 (normD m e).2) with
    | Option.some n => Cell.int n
    | Option.none =>
      match pyFloatOfChars (decChars (normD m e).1 (normD m e).2) with
      | Option.some f =>
        match f with
        | .fin m e => if isIntD m e then .int (toIntD m e) else .float (.fin m e)
        | g => .float g
      | Option.none => x) = _
  rw [pyInt_decChars]
  by_cases hint : isIntD m e = true
  · have he1 : (normD m e).2 = 0 := normD_snd_zero_of_isInt hint
    rw [he1, pyFloat_decChars_zero]
    show (if isIntD ((normD m e).1 * 10) 1
        then Cell.int (toIntD ((normD m e).1 * 10) 1)
        else Cell.float (.fin ((normD m e).1 * 10) 1)) = _
    have hii : isIntD ((normD m e).1 * 10) 1 = true := by
      unfold isIntD
      rw [pow_one]
      simp only [beq_iff_eq]
      omega
    have hti : toIntD ((normD m e).1 * 10) 1 = (normD m e).1 := by
      unfold toIntD
      rw [pow_one]
      omega
    rw [hii, hti, if_pos rfl, hint, if_pos rfl]
    have hval := normD_val e m
    rw [he1] at hval
    simp only [pow_zero, mul_one] at hval
    have : toIntD m e = (normD m e).1 := by
      unfold toIntD
      conv_lhs => rw [← hval]
      exact Int.mul_ediv_cancel _ (pow_ne_zero e (by norm_num))
    rw [this]
  · have hint2 : isIntD m e = false := by simpa using hint
    have he1 : (normD m e).2 ≠ 0 := normD_snd_ne_zero_of_not_int hint2
    rw [pyFloat_decChars_pos _ _ he1]
    show (if isIntD (normD m e).1 (normD m e).2
        then Cell.int (toIntD (normD m e).1 (normD m e).2)
        else Cell.float (.fin (normD m e).1 (normD m e).2)) = _
    have hii : isIntD (normD m e).1 (normD m e).2 = false := by
      rw [isIntD_normD]
      exact hint2
    rw [hii, hint2]
    simp

theorem numericCore_inf (x : Cell) : numericCore "inf" x = .float .inf := rfl

theorem numericCore_ninf (x : Cell) : numericCore "-inf" x = .float .ninf := rfl

theorem numericCore_nan (x : Cell) : numericCore "nan" x = .float .nan := rfl

/-- `numeric` on a string input hands the string itself to the cascade. -/
theorem numeric_str_def (s : String) :
    numeric (.str s) = numericCore s (.str s) := rfl

/-- The possible shapes of `numeric` on a string: the untouched input,
an integer, a non-integral finite float, or one of the special float
values. -/
theorem numeric_str_cases (x : String) :
    numeric (.str x) = .str x ∨ (∃ n, numeric (.str x) = .int n) ∨
    (∃ m e, numeric (.str x) = .float (.fin m e) ∧ isIntD m e = false) ∨
    numeric (.str x) = .float .inf ∨ numeric (.str x) = .float .ninf ∨
    numeric (.str x) = .float .nan := by
  rw [numeric_str_def]
  unfold numericCore
  set L := if reNumericMatches x then mutChars x.data else x.data with hL
  rcases h1 : pyIntOfChars L with _ | n
  · rcases h2 : pyFloatOfChars L with _ | f
    · left
      simp only [h1, h2]
    · rcases f with ⟨m, e⟩ | _ | _ | _
      · by_cases hint : isIntD m e = true
        · right; left
          refine ⟨toIntD m e, ?_⟩
          simp only [h1, h2, hint, if_true]
        · right; right; left
          have hint2 : isIntD m e = false := by simpa using hint
          refine ⟨m, e, ?_, hint2⟩
          simp only [h1, h2, hint2, Bool.false_eq_true, if_false]
      · right; right; right; left
        simp only [h1, h2]
      · right; right; right; right; left
        simp only [h1, h2]
      · right; right; right; right; right
        simp only [h1, h2]
  · right; left
    refine ⟨n, ?_⟩
    simp only [h1]

theorem numeric_intStr_roundtrip (n : Int) :
    numeric (.str (intStr n)) = .int n :=
  numericCore_intStr _ n

theorem numeric_int_passthrough (n : Int) : numeric (.int n) = .int n :=
  numericCore_intStr _ n

theorem numeric_float_valEq (f : PyFloat) :
    numValEq (numeric (.float f)) (.float f) = true := by
  cases f with
  | fin m e =>
    have hdef : numeric (.float (.fin m e)) =
        numericCore (pyFloatStr (.fin m e)) (.float (.fin m e)) := rfl
    rw [hdef, numericCore_finStr]
    by_cases hint : isIntD m e = true
    · rw [if_pos hint]
      show (toIntD m e * (10 : Int) ^ e == m) = true
      simp only [beq_iff_eq]
      unfold toIntD
      exact Int.ediv_mul_cancel (Int.dvd_of_emod_eq_zero (by
        have := hint
        unfold isIntD at this
        exact beq_iff_eq.mp this))
    · have hint2 : isIntD m e = false := by simpa using hint
      rw [hint2]
      show ((normD m e).1 * (10 : Int) ^ e == m * (10 : Int) ^ (normD m e).2) = true
      simp only [beq_iff_eq]
      exact normD_val e m
  | inf => rfl
  | ninf => rfl
  | nan => rfl

theorem contains_comma_of_mem {l : List Char} (h : ',' ∈ l) :
    l.contains ',' = true := by
  simp [List.contains, List.elem_eq_mem, h]

theorem mutChars_eq_filter (l : List Char) :
    mutChars l = (if l.head? = Option.some '$' then l.tail else l).filter
      (fun c => !(c == ',')) := by
  simp only [mutChars]
  by_cases h : ',' ∈ (if l.head? = Option.some '$' then l.tail else l)
  · rw [contains_comma_of_mem h]
    simp
  · rw [contains_eq_false_of_not_mem h]
    simp only [Bool.false_eq_true, if_false]
    symm
    apply List.filter_eq_self.mpr
    intro c hc
    simp only [Bool.not_eq_eq_eq_not, Bool.not_true, beq_eq_false_iff_ne, ne_eq]
    intro hcc
    subst hcc
    exact h hc

theorem numeric_eq_specA (s : String) : numeric (.str s) = numericSpecA s := by
  rw [numeric_str_def]
  simp only [numericCore, numericSpecA, mutChars_eq_filter]
  rcases h1 : pyIntOfChars (if reNumericMatches s = true then
      (if s.data.head? = Option.some '$' then s.data.tail else s.data).filter
        (fun c => !(c == ',')) else s.data) with _ | n
  · rcases h2 : pyFloatOfChars (if reNumericMatches s = true then
        (if s.data.head? = Option.some '$' then s.data.tail else s.data).filter
          (fun c => !(c == ',')) else s.data) with _ | f
    · simp only [h1, h2]
    · rcases f with ⟨m, e⟩ | _ | _ | _ <;> simp only [h1, h2]
  · simp only [h1]

/-- C6 (amended): numeric coercion is idempotent through rendering —
`coerce(render(coerce(x))) == coerce(x)` under Python `==` — for every
string whose coerced value is not the float `nan` (Python's `nan != nan`
makes the original unrestricted claim false). -/
theorem numeric_idempotent_amended (x : String)
    (h : numeric (.str x) ≠ .float .nan) :
    pyEq (numeric (.str (pyStr (numeric (.str x))))) (numeric (.str x)) = true := by
  rcases numeric_str_cases x with hc | ⟨n, hc⟩ | ⟨m, e, hc, hni⟩ | hc | hc | hc
  · rw [hc]
    show pyEq (numeric (.str x)) (.str x) = true
    rw [hc]
    show (x == x) = true
    simp
  · rw [hc]
    show pyEq (numeric (.str (intStr n))) (.int n) = true
    rw [numeric_intStr_roundtrip]
    show (n == n) = true
    simp
  · rw [hc]
    show pyEq (numeric (.str (pyFloatStr (.fin m e)))) (.float (.fin m e)) = true
    have hdef : numeric (.str (pyFloatStr (.fin m e))) =
        numericCore (pyFloatStr (.fin m e)) (.str (pyFloatStr (.fin m e))) := rfl
    rw [hdef, numericCore_finStr, hni]
    show ((normD m e).1 * (10 : Int) ^ e == m * (10 : Int) ^ (normD m e).2) = true
    simp only [beq_iff_eq]
    exact normD_val e m
  · rw [hc]; rfl
  · rw [hc]; rfl
  · exact absurd hc h

/-- Witness for the amended C6 theorem at `x = "3.25"`. -/
theorem numeric_idempotent_amended_witness :
    pyEq (numeric (.str (pyStr (numeric (.str "3.25"))))) (numeric (.str "3.25"))
      = true :=
  numeric_idempotent_amended "3.25" (by decide)

/-- C6 counterexample: for `x = "nan"` the coerced value is the float
`nan`, and Python's `nan != nan` breaks idempotence under `==`. -/
theorem numeric_idempotence_nan_counterexample :
    numeric (.str "nan") = .float .nan ∧
    pyEq (numeric (.str (pyStr (numeric (.str "nan"))))) (numeric (.str "nan"))
      = false := by decide

/-- C5 (amended): the regex gates only the stripping (only a leading
dollar sign is removed, plus all commas); the integer and decimal parses
are attempted whether or not the pattern matched; on double failure the
original string is returned; and already-numeric inputs are returned
with equal numeric value (integers unchanged, integral floats narrowed
to `int`). -/
theorem numeric_algorithm_amended :
    (∀ s : String, numeric (.str s) = numericSpecA s) ∧
    (∀ n : Int, numeric (.int n) = .int n) ∧
    (∀ f : PyFloat, numValEq (numeric (.float f)) (.float f) = true) :=
  ⟨numeric_eq_specA, numeric_int_passthrough, numeric_float_valEq⟩

/-- C5 counterexample: the claimed algorithm strips any currency symbol
(`"€5" ↦ 5`) and parses only when the pattern matches (`"+5" ↦ "+5"`),
while the source strips only `"$"` (`"€5" ↦ "€5"`) and parses
unconditionally (`"+5" ↦ 5`). -/
theorem numeric_claim_counterexample :
    numeric (.str "€5") = .str "€5" ∧ numericClaimAlg "€5" = .int 5 ∧
    numeric (.str "€5") ≠ numericClaimAlg "€5" ∧
    numeric (.str "+5") = .int 5 ∧ numericClaimAlg "+5" = .str "+5" ∧
    numeric (.str "+5") ≠ numericClaimAlg "+5" := by decide

/-! ## parse_range: failure characterization and invariants -/

theorem splitOnChar_ne_nil (sep : Char) : ∀ cs, splitOnChar sep cs ≠ [] := by
  intro cs
  induction cs with
  | nil => simp [splitOnChar]
  | cons c cs ih =>
    unfold splitOnChar
    rcases h : splitOnChar sep cs with _ | ⟨hd, tl⟩
    · simp
    · by_cases hc : c == sep <;> simp [hc]

theorem splitOnChar_length (sep : Char) :
    ∀ cs, (splitOnChar sep cs).length = cs.count sep + 1 := by
  intro cs
  induction cs with
  | nil => rfl
  | cons c cs ih =>
    unfold splitOnChar
    rcases h : splitOnChar sep cs with _ | ⟨hd, tl⟩
    · exact absurd h (splitOnChar_ne_nil sep cs)
    · rw [h] at ih
      simp only [List.length_cons] at ih
      by_cases hc : (c == sep) = true
    
      · simp only [hc, if_true, List.length_cons, List.count_cons, hc]
        omega
      · have hc2 : (c == sep) = false := by simpa using hc
        simp only [hc2, Bool.false_eq_true, if_false, List.length_cons,
          List.count_cons, hc2]
        omega

theorem splitOnChar_no_sep {sep : Char} {cs : List Char} (h : sep ∉ cs) :
    splitOnChar sep cs = [cs] := by
  induction cs with
  | nil => rfl
  | cons c cs ih =>
    unfold splitOnChar
    rw [ih (fun hm => h (List.mem_cons_of_mem _ hm))]
    have hc : (c == sep) = false := by
      simp only [beq_eq_false_iff_ne, ne_eq]
      intro rfl2
      subst rfl2
      exact h (List.mem_cons_self ..)
    simp [hc]

theorem splitOnChar_pieces_no_sep (sep : Char) :
    ∀ cs p, p ∈ splitOnChar sep cs → sep ∉ p := by
  intro cs
  induction cs with
  | nil =>
    intro p hp
    simp only [splitOnChar, List.mem_singleton] at hp
    subst hp
    simp
  | cons c cs ih =>
    intro p hp
    unfold splitOnChar at hp
    rcases h : splitOnChar sep cs with _ | ⟨hd, tl⟩
    · exact absurd h (splitOnChar_ne_nil sep cs)
    · rw [h] at hp
      by_cases hc : (c == sep) = true
      · simp only [hc, if_true, List.mem_cons] at hp
        rcases hp with rfl | hp
        · simp
        · exact ih p (by rw [h]; exact List.mem_cons.mpr hp)
      · have hc2 : (c == sep) = false := by simpa using hc
        simp only [hc2, Bool.false_eq_true, if_false, List.mem_cons] at hp
        rcases hp with rfl | hp
        · intro hm
          rcases List.mem_cons.mp hm with rfl | hm
          · simp at hc2
          · exact ih hd (by rw [h]; exact List.mem_cons_self ..) hm
        · exact ih p (by rw [h]; exact List.mem_cons.mpr (Or.inr hp))

theorem dropLeadWs_subset : ∀ (l : List Char), ∀ c ∈ dropLeadWs l, c ∈ l := by
  intro l
  induction l with
  | nil => intro c hc; exact hc
  | cons a l ih =>
    intro c hc
    unfold dropLeadWs at hc
    by_cases ha : wsChar a = true
    · rw [ha] at hc
      simp only [if_true] at hc
      exact List.mem_cons_of_mem _ (ih c hc)
    · have ha2 : wsChar a = false := by simpa using ha
      rw [ha2] at hc
      simp only [Bool.false_eq_true, if_false] at hc
      exact hc

theorem pyStrip_subset (l : List Char) : ∀ c ∈ pyStripChars l, c ∈ l := by
  intro c hc
  unfold pyStripChars at hc
  rw [List.mem_reverse] at hc
  have h1 := dropLeadWs_subset _ _ hc
  rw [List.mem_reverse] at h1
  exact dropLeadWs_subset _ _ h1

theorem pyInt_nonneg {cs : List Char} {k : Int} (hd : '-' ∉ cs)
    (h : pyIntOfChars cs = Option.some k) : 0 ≤ k := by
  have hsb : (signedBody (pyStripChars cs)).1 = false := by
    rcases hs : pyStripChars cs with _ | ⟨c0, cr⟩
    · rfl
    · have hc0 : c0 ≠ '-' := by
        intro h2
        subst h2
        exact hd (pyStrip_subset cs '-' (by rw [hs]; exact List.mem_cons_self ..))
      unfold signedBody
      by_cases hp : c0 = '+' <;> simp [hc0, hp]
  revert h
  show ((match digRun (signedBody (pyStripChars cs)).2 0 0 with
      | (v, kk, []) => if kk == 0 then Option.none
          else Option.some (if (signedBody (pyStripChars cs)).1
            then -(v : Int) else (v : Int))
      | _ => Option.none) = Option.some k) → 0 ≤ k
  intro h
  rcases hrun : digRun (signedBody (pyStripChars cs)).2 0 0 with ⟨v, kk, rest⟩
  rw [hrun] at h
  rcases rest with _ | ⟨r0, rr⟩
  · have h2 : (if kk == 0 then Option.none
        else Option.some (if (signedBody (pyStripChars cs)).1
          then -(v : Int) else (v : Int))) = Option.some k := h
    by_cases hk : (kk == 0) = true
    · rw [hk] at h2
      simp at h2
    · have hk2 : (kk == 0) = false := by simpa using hk
      rw [hk2] at h2
      simp only [Bool.false_eq_true, if_false, Option.some.injEq] at h2
      rw [hsb] at h2
      simp only [Bool.false_eq_true, if_false] at h2
      omega
  · have h2 : (Option.none : Option Int) = Option.some k := h
    exact Option.noConfusion h2

theorem parseRangeToken_error_iff (t : List Char) :
    (∃ e, parseRangeToken t = .error e) ↔ claimRangeTokenBad t = true := by
  unfold parseRangeToken claimRangeTokenBad
  have hlen := splitOnChar_length '-' t
  rcases hsp : splitOnChar '-' t with _ | ⟨p, ps⟩
  · exact absurd hsp (splitOnChar_ne_nil _ _)
  · rcases ps with _ | ⟨p2, ps2⟩
    · rw [hsp] at hlen
      simp only [List.length_singleton] at hlen
      rw [if_neg (by omega)]
      rcases h : pyIntOfChars p with _ | k <;> simp [h]
    · rcases ps2 with _ | ⟨p3, ps3⟩
      · rw [hsp] at hlen
        simp only [List.length_cons, List.length_nil] at hlen
        rw [if_neg (by omega)]
        by_cases hp1 : p.isEmpty = true
        · by_cases hp2 : p2.isEmpty = true
          · simp [hp1, hp2]
          · have hp2f : p2.isEmpty = false := by simpa using hp2
            rcases h2 : pyIntOfChars p2 with _ | k2 <;> simp [hp1, hp2f, h2]
        · have hp1f : p.isEmpty = false := by simpa using hp1
          rcases h1 : pyIntOfChars p with _ | k1
          · simp [hp1f, h1]
          · by_cases hp2 : p2.isEmpty = true
            · simp [hp1f, h1, hp2]
            · have hp2f : p2.isEmpty = false := by simpa using hp2
              rcases h2 : pyIntOfChars p2 with _ | k2 <;> simp [hp1f, h1, hp2f, h2]
      · rw [hsp] at hlen
        simp only [List.length_cons] at hlen
        rw [if_pos (by omega)]
        simp

theorem exMapM_error_iff {α β : Type} (f : α → Except String β) :
    ∀ l : List α, (∃ e, exMapM f l = .error e) ↔ ∃ a ∈ l, ∃ e, f a = .error e := by
  intro l
  induction l with
  | nil => simp [exMapM]
  | cons a l ih =>
    rcases h : f a with e1 | b
    · constructor
      · intro _
        exact ⟨a, List.mem_cons_self .., e1, h⟩
      · intro _
        refine ⟨e1, ?_⟩
        unfold exMapM
        rw [h]
    · have hred : exMapM f (a :: l) = (exMapM f l).map (b :: ·) := by
        conv_lhs => unfold exMapM
        rw [h]
      rcases h2 : exMapM f l with e2 | bs
      · rw [h2] at hred
        constructor
        · intro _
          rcases ih.mp ⟨e2, h2⟩ with ⟨x, hx, ex, hfx⟩
          exact ⟨x, List.mem_cons_of_mem _ hx, ex, hfx⟩
        · intro _
          exact ⟨e2, hred⟩
      · rw [h2] at hred
        constructor
        · intro ⟨e, he⟩
          rw [hred] at he
          exact Except.noConfusion he
        · intro ⟨x, hx, ex, hfx⟩
          rcases List.mem_cons.mp hx with rfl | hx
          · rw [h] at hfx
            exact Except.noConfusion hfx
          · rcases ih.mpr ⟨x, hx, ex, hfx⟩ with ⟨e, he⟩
            rw [he] at h2
            exact Except.noConfusion h2

theorem exMapM_ok_mem {α β : Type} {f : α → Except String β} :
    ∀ {l : List α} {out : List β}, exMapM f l = .ok out →
      ∀ b ∈ out, ∃ a ∈ l, f a = .ok b := by
  intro l
  induction l with
  | nil =>
    intro out hout b hb
    unfold exMapM at hout
    rcases hout
    simp at hb
  | cons a l ih =>
    intro out hout b hb
    unfold exMapM at hout
    rcases h : f a with e1 | b0
    · rw [h] at hout
      exact Except.noConfusion hout
    · rw [h] at hout
      rcases h2 : exMapM f l with e2 | bs
      · rw [h2] at hout
        exact Except.noConfusion hout
      · rw [h2] at hout
        have hout2 : Except.ok (ε := String) (b0 :: bs) = Except.ok out := hout
        rcases hout2
        rcases List.mem_cons.mp hb with rfl | hb
        · exact ⟨a, List.mem_cons_self .., h⟩
        · rcases ih h2 b hb with ⟨x, hx, hfx⟩
          exact ⟨x, List.mem_cons_of_mem _ hx, hfx⟩

/-- C7: field-range parsing fails exactly when some comma-separated
token has a present numeric piece that is not a valid integer or more
than one `-`; and the `N` / `N-` / `N-M` examples parse as stated. -/
theorem parse_range_failure_characterization :
    (∀ s : String, (∃ e, parse_range s = .error e) ↔
      ∃ t ∈ rangeTokens s, claimRangeTokenBad t = true) ∧
    parse_range "1" = .ok [(0, Option.some 1)] ∧
    parse_range "2-" = .ok [(1, Option.none)] ∧
    parse_range "1-3,5" = .ok [(0, Option.some 3), (4, Option.some 5)] ∧
    (∃ e, parse_range "x-2" = .error e) := by
  refine ⟨?_, by decide, by decide, by decide,
    ⟨"ValueError: invalid literal for int", by decide⟩⟩
  intro s
  unfold parse_range
  rw [exMapM_error_iff]
  constructor
  · intro ⟨t, ht, e, he⟩
    exact ⟨t, ht, (parseRangeToken_error_iff t).mp ⟨e, he⟩⟩
  · intro ⟨t, ht, hbad⟩
    rcases (parseRangeToken_error_iff t).mpr hbad with ⟨e, he⟩
    exact ⟨t, ht, e, he⟩

theorem parseRangeToken_good {t : List Char} {r : FieldRange}
    (hok : parseRangeToken t = .ok r) (hgood : rangeTokenGood t = true) :
    0 ≤ r.1 ∧ ∀ m, r.2 = Option.some m → r.1 ≤ m := by
  unfold parseRangeToken at hok
  unfold rangeTokenGood at hgood
  rcases hsp : splitOnChar '-' t with _ | ⟨p, ps⟩
  · exact absurd hsp (splitOnChar_ne_nil _ _)
  · rw [hsp] at hok hgood
    rcases ps with _ | ⟨p2, ps2⟩
    · have hok2 : (match pyIntOfChars p with
        | Option.some m => Except.ok (ε := String) ((m - 1 : Int), Option.some m)
        | Option.none =>
          Except.error "ValueError: invalid literal for int") = .ok r := hok
      have hgood2 : (match pyIntOfChars p with
        | Option.some k => decide (1 ≤ k)
        | Option.none => true) = true := hgood
      rcases h1 : pyIntOfChars p with _ | k
      · rw [h1] at hok2
        exact Except.noConfusion hok2
      · rw [h1] at hok2 hgood2
        have hr : (k - 1, Option.some k) = r := by injection hok2
        subst hr
        simp only [decide_eq_true_eq] at hgood2
        refine ⟨by omega, ?_⟩
        intro m hm
        injection hm with hm
        omega
    · rcases ps2 with _ | ⟨p3, ps3⟩
      · have hok2 : (match (if p.isEmpty then Option.some (0 : Int)
            else (pyIntOfChars p).map (· - 1)) with
          | Option.none =>
            Except.error (α := FieldRange) "ValueError: invalid literal for int"
          | Option.some n =>
            match (if p2.isEmpty then Option.some (Option.none : Option Int)
                else (pyIntOfChars p2).map Option.some) with
            | Option.none => Except.error "ValueError: invalid literal for int"
            | Option.some m => Except.ok (n, m)) = .ok r := hok
        have hgood2 : ((p.isEmpty || match pyIntOfChars p with
            | Option.some k => decide (1 ≤ k)
            | Option.none => true) &&
          (p.isEmpty || p2.isEmpty ||
            match pyIntOfChars p, pyIntOfChars p2 with
            | Option.some k1, Option.some k2 => decide (k1 ≤ k2)
            | _, _ => true)) = true := hgood
        by_cases hp1 : p.isEmpty = true
        · rw [hp1] at hok2
          simp only [if_true] at hok2
          by_cases hp2 : p2.isEmpty = true
          · rw [hp2] at hok2
            simp only [if_true] at hok2
            have hr : ((0 : Int), (Option.none : Option Int)) = r := by
              injection hok2
            subst hr
            exact ⟨le_refl _, fun m hm => Option.noConfusion hm⟩
          · have hp2f : p2.isEmpty = false := by simpa using hp2
            rw [hp2f] at hok2
            simp only [Bool.false_eq_true, if_false] at hok2
            rcases h2 : pyIntOfChars p2 with _ | k2
            · rw [h2] at hok2
              exact Except.noConfusion hok2
            · rw [h2] at hok2
              simp only [Option.map_some'] at hok2
              have hr : ((0 : Int), Option.some k2) = r := by injection hok2
              subst hr
              have hmem : p2 ∈ splitOnChar '-' t := by
                rw [hsp]
                exact List.mem_cons.mpr (Or.inr (List.mem_cons_self _ _))
              have hk2 : 0 ≤ k2 :=
                pyInt_nonneg (splitOnChar_pieces_no_sep '-' t p2 hmem) h2
              refine ⟨le_refl _, ?_⟩
              intro m hm
              injection hm with hm
              omega
        · have hp1f : p.isEmpty = false := by simpa using hp1
          rw [hp1f] at hok2 hgood2
          simp only [Bool.false_eq_true, if_false, Bool.false_or] at hok2 hgood2
          rcases h1 : pyIntOfChars p with _ | k1
          · rw [h1] at hok2
            simp only [Option.map_none'] at hok2
            exact Except.noConfusion hok2
          · rw [h1] at hok2 hgood2
            simp only [Option.map_some'] at hok2
            rw [Bool.and_eq_true] at hgood2
            have hk1 : 1 ≤ k1 := by
              have := hgood2.1
              simpa using this
            by_cases hp2 : p2.isEmpty = true
            · rw [hp2] at hok2
              simp only [if_true] at hok2
              have hr : (k1 - 1, (Option.none : Option Int)) = r := by
                injection hok2
              subst hr
              exact ⟨by omega, fun m hm => Option.noConfusion hm⟩
            · have hp2f : p2.isEmpty = false := by simpa using hp2
              rw [hp2f] at hok2
              simp only [Bool.false_eq_true, if_false, Bool.false_or] at hok2
              rcases h2 : pyIntOfChars p2 with _ | k2
              · rw [h2] at hok2
                simp only [Option.map_none'] at hok2
                exact Except.noConfusion hok2
              · rw [h2] at hok2
                simp only [Option.map_some'] at hok2
                have hr : (k1 - 1, Option.some k2) = r := by injection hok2
                subst hr
                have hk12 : k1 ≤ k2 := by
                  have := hgood2.2
                  rw [hp2f, h2] at this
                  simpa using this
                refine ⟨by omega, ?_⟩
                intro m hm
                injection hm with hm
                omega
      · exact Except.noConfusion hok

theorem parse_range_intStr (n : Int) (hn : 1 ≤ n) :
    parse_range (intStr n) = .ok [(n - 1, Option.some n)] := by
  have hnn : ¬ n < 0 := by omega
  have hic : intChars n = natChars n.natAbs := if_neg hnn
  have hdig := natChars_isDigit n.natAbs
  have hnc : ',' ∉ intChars n := by
    rw [hic]
    intro h
    exact absurd (hdig ',' h) (by decide)
  have hnd : '-' ∉ intChars n := by
    rw [hic]
    intro h
    exact absurd (hdig '-' h) (by decide)
  have hnw : ∀ c ∈ intChars n, wsChar c = false := by
    rw [hic]
    exact natChars_not_ws
  have htok : parseRangeToken (intChars n) = .ok (n - 1, Option.some n) := by
    unfold parseRangeToken
    rw [splitOnChar_no_sep hnd]
    show (match pyIntOfChars (intChars n) with
      | Option.some m => Except.ok ((m - 1 : Int), Option.some m)
      | Option.none => Except.error "ValueError: invalid literal for int") = _
    rw [pyInt_intChars]
  unfold parse_range rangeTokens
  rw [show (intStr n).data = intChars n from rfl, splitOnChar_no_sep hnc,
    List.map_singleton, pyStrip_eq_self hnw]
  unfold exMapM
  rw [htok]
  rfl

/-- C8 (amended): parsed field ranges satisfy `0 ≤ start` and
`start ≤ end` (when bounded) provided every explicit `N` piece is at
least 1 and every fully explicit `N-M` token has `N ≤ M`; a lone `N`
token with `N ≥ 1` yields exactly the range `(N-1, N)`.  (Without those
side conditions the invariant fails: `"0"` parses to start `-1` and
`"3-1"` to an inverted range.) -/
theorem parse_range_invariant_amended :
    (∀ (s : String) (rs : List FieldRange), parse_range s = .ok rs →
      (∀ t ∈ rangeTokens s, rangeTokenGood t = true) →
      ∀ r ∈ rs, 0 ≤ r.1 ∧ ∀ m, r.2 = Option.some m → r.1 ≤ m) ∧
    (∀ n : Int, 1 ≤ n → parse_range (intStr n) = .ok [(n - 1, Option.some n)]) := by
  constructor
  · intro s rs hok hgood r hr
    rcases exMapM_ok_mem hok r hr with ⟨t, ht, htok⟩
    exact parseRangeToken_good htok (hgood t ht)
  · exact parse_range_intStr

/-- Witness for the amended C8 theorem: the spec and a lone token at
concrete inputs. -/
theorem parse_range_invariant_amended_witness :
    (∀ r ∈ [((0 : Int), Option.some (3 : Int)), (4, Option.some 5)],
      0 ≤ r.1 ∧ ∀ m, r.2 = Option.some m → r.1 ≤ m) ∧
    parse_range (intStr 7) = .ok [(6, Option.some 7)] := by
  constructor
  · exact parse_range_invariant_amended.1 "1-3,5"
      [((0 : Int), Option.some (3 : Int)), (4, Option.some 5)]
      (by decide) (by decide)
  · exact parse_range_invariant_amended.2 7 (by decide)

/-- C8 counterexample: `parse_range` accepts `"0"` with a negative
start and `"3-1"` with start above its bounded end, so the unrestricted
invariant is false on the code. -/
theorem parse_range_invariant_counterexample :
    parse_range "0" = .ok [(-1, Option.some 0)] ∧ ¬ (0 ≤ (-1 : Int)) ∧
    parse_range "3-1" = .ok [(2, Option.some 1)] ∧ ¬ ((2 : Int) ≤ 1) := by
  decide

/-! ## Pipeline claims: headings, joins, ordering -/

theorem sliceIdx_le (j : Int) (len : Nat) : sliceIdx j len ≤ len := by
  unfold sliceIdx
  by_cases hj : j < 0
  · rw [if_pos hj]
    omega
  · rw [if_neg hj]
    exact min_le_right _ _

/-- C10: a join range whose start is at or past the row's end appends
exactly one empty-string cell (the join of the empty slice) and never
raises. -/
theorem join_past_end_appends_empty (sep : String) (n : Int) (m : Option Int)
    (row : List Cell) (h : (row.length : Int) ≤ n) :
    applyJoin sep (n, m) row = .ok (row ++ [.str ""]) := by
  have hn0 : ¬ n < 0 := by omega
  have ha : sliceIdx n row.length = row.length := by
    unfold sliceIdx
    rw [if_neg hn0]
    exact min_eq_right (by omega)
  simp only [applyJoin, pySliceGet, pySliceSet, ha]
  rcases m with _ | j
  · simp [List.drop_length, joinSep]
  · have hble : sliceIdx j row.length ≤ row.length := sliceIdx_le j row.length
    simp [List.drop_length, joinSep, Nat.max_eq_left hble]

/-- Witness for C10 at a concrete short row. -/
theorem join_past_end_appends_empty_witness :
    applyJoin "-" (5, Option.some 7) [Cell.str "a"] =
      .ok [Cell.str "a", Cell.str ""] :=
  join_past_end_appends_empty "-" 5 (Option.some 7) [Cell.str "a"] (by decide)

/-- C1 (amended): a heading row (1-based index at most the configured
heading count) skips numeric coercion and the user row-transform, but
still passes through the join stage and the keep stage before reaching
the writer. -/
theorem heading_rows_skip_coercion_only (cfg : Cfg) (i : Nat)
    (row : List Cell) (h : i ≤ cfg.headingLines) :
    processRow cfg i row =
      match joinStage cfg.joinChar cfg.joinFields row with
      | Except.error e => Except.error e
      | Except.ok r2 =>
        Except.ok (Option.some
          (if cfg.keep.isEmpty then r2 else keepStage cfg.keep r2)) := by
  have hno : ¬ cfg.headingLines < i := by omega
  simp only [processRow, if_neg hno]

/-- Witness for the amended C1 theorem at a concrete heading row. -/
theorem heading_rows_skip_coercion_only_witness :
    processRow ⟨1, "-", [((0 : Int), Option.some (2 : Int))], Option.none, []⟩ 1
      [Cell.str "a", Cell.str "b"] =
      match joinStage "-" [((0 : Int), Option.some (2 : Int))]
          [Cell.str "a", Cell.str "b"] with
      | Except.error e => Except.error e
      | Except.ok r2 => Except.ok (Option.some r2) :=
  heading_rows_skip_coercion_only
    ⟨1, "-", [((0 : Int), Option.some (2 : Int))], Option.none, []⟩ 1
    [Cell.str "a", Cell.str "b"] (by decide)

/-- C1 counterexample: with one heading line and `--join -1-2`, the
heading row `["a","b"]` reaches the writer as `["a-b"]`, not verbatim —
the join (and keep) stages are not skipped for heading rows. -/
theorem heading_rows_not_verbatim_counterexample :
    processRow ⟨1, "-", [((0 : Int), Option.some (2 : Int))], Option.none, []⟩ 1
        [Cell.str "a", Cell.str "b"] =
      .ok (Option.some [Cell.str "a-b"]) ∧
    (Option.some [Cell.str "a-b"] ≠
      Option.some [Cell.str "a", Cell.str "b"]) := by
  decide

/-- C9: the rows handed to the writer are the literal command-line row
first (when arguments were given), followed by the processed input rows
in exactly their input order, minus the rows the transform dropped
(`streamSpec` is that in-order stream by construction). -/
theorem driver_ordering (cfg : Cfg) (args : List String)
    (inputs : List (List Cell)) :
    driverRows cfg args inputs =
      (streamSpec cfg 1 inputs).map
        (fun rows => (if args.isEmpty then [] else [args.map Cell.str]) ++ rows) := by
  have key : ∀ (l : List (List Cell)) (i : Nat) (acc : List (List Cell)),
      driverLoop cfg i acc l = (streamSpec cfg (i + 1) l).map (acc ++ ·) := by
    intro l
    induction l with
    | nil =>
      intro i acc
      show Except.ok acc = (Except.ok []).map (acc ++ ·)
      show Except.ok acc = Except.ok (acc ++ [])
      rw [List.append_nil]
    | cons r rest ih =>
      intro i acc
      unfold driverLoop streamSpec
      rcases h : processRow cfg (i + 1) r with e | o
      · rfl
      · rcases o with _ | r'
        · exact ih (i + 1) acc
        · show driverLoop cfg (i + 1) (acc ++ [r']) rest =
            Except.map (acc ++ ·)
              ((streamSpec cfg (i + 1 + 1) rest).map (r' :: ·))
          rw [ih (i + 1) (acc ++ [r'])]
          rcases h2 : streamSpec cfg (i + 1 + 1) rest with e2 | l2
          · rfl
          · show Except.ok (acc ++ [r'] ++ l2) = Except.ok (acc ++ (r' :: l2))
            rw [List.append_assoc]
            rfl
  unfold driverRows
  rw [key]

theorem truthy_strings_filterMap :
    ∀ l : List Cell, (∀ c ∈ l, truthy c = true → cellIsStr c = true) →
      (l.filter truthy).map cellStr =
        l.filterMap (fun c =>
          match c with
          | .str s => if s.isEmpty then Option.none else Option.some s
          | _ => Option.none) := by
  intro l
  induction l with
  | nil => intro _; rfl
  | cons c l ih =>
    intro h
    have hrest := fun c2 hc2 => h c2 (List.mem_cons_of_mem _ hc2)
    by_cases ht : truthy c = true
    · have hs : cellIsStr c = true := h c (List.mem_cons_self ..) ht
      rcases c with s | n | f | _
      · have hne : s.isEmpty = false := by
          unfold truthy at ht
          simpa using ht
        rw [List.filter_cons_of_pos ht, List.map_cons, List.filterMap_cons]
        simp only [hne, Bool.false_eq_true, if_false]
        rw [ih hrest]
        rfl
      · exact Bool.noConfusion hs
      · exact Bool.noConfusion hs
      · exact Bool.noConfusion hs
    · have ht2 : truthy c = false := by simpa using ht
      rw [List.filter_cons_of_neg (by simp [ht2]), List.filterMap_cons]
      have harm : (match c with
          | Cell.str s => if s.isEmpty then Option.none else Option.some s
          | _ => (Option.none : Option String)) = Option.none := by
        rcases c with s | n | f | _
        · have : s.isEmpty = true := by
            unfold truthy at ht2
            simpa using ht2
          simp [this]
        · rfl
        · rfl
        · rfl
      rw [harm]
      exact ih hrest

/-- C2 (amended): each join range replaces the addressed slice with the
separator-joined truthy cells of the slice — the empty string, `None`
and numeric zero are all omitted — and raises `TypeError` when a kept
(truthy) cell is not a string; `joinSpecA` states exactly that. -/
theorem applyJoin_eq_joinSpecA (sep : String) (r : FieldRange)
    (row : List Cell) : applyJoin sep r row = joinSpecA sep r row := by
  simp only [applyJoin, joinSpecA]
  by_cases h : (pySliceGet row r.1 r.2).any
      (fun c => truthy c && !(cellIsStr c)) = true
  · have hall : ((pySliceGet row r.1 r.2).filter truthy).all cellIsStr = false := by
      rcases List.any_eq_true.mp h with ⟨c, hc, hcc⟩
      rw [Bool.and_eq_true] at hcc
      apply List.all_eq_false.mpr
      refine ⟨c, List.mem_filter.mpr ⟨hc, hcc.1⟩, ?_⟩
      simpa using hcc.2
    rw [hall, h]
    simp
  · have h2 : (pySliceGet row r.1 r.2).any
        (fun c => truthy c && !(cellIsStr c)) = false := by simpa using h
    have himp : ∀ c ∈ pySliceGet row r.1 r.2,
        truthy c = true → cellIsStr c = true := by
      intro c hc ht
      by_contra hcs
      have hcs2 : cellIsStr c = false := by simpa using hcs
      have : (pySliceGet row r.1 r.2).any
          (fun c => truthy c && !(cellIsStr c)) = true :=
        List.any_eq_true.mpr ⟨c, hc, by simp [ht, hcs2]⟩
      rw [this] at h2
      exact Bool.noConfusion h2
    have hall : ((pySliceGet row r.1 r.2).filter truthy).all cellIsStr = true := by
      apply List.all_eq_true.mpr
      intro c hc
      rcases List.mem_filter.mp hc with ⟨hcm, hct⟩
      exact himp c hcm hct
    rw [hall, h2]
    simp only [if_true, Bool.false_eq_true, if_false]
    rw [truthy_strings_filterMap _ himp]

/-- C2 counterexample: numeric zero is omitted from the join (it does
not contribute `"0"`), a truthy non-string cell raises `TypeError`
(the stage does not take string forms), and the configured ranges are
processed in the reverse of the order given, not in descending start
order (the parsed spec `[(1,3), (0,2)]` is processed as `(0,2)` then
`(1,3)`). -/
theorem join_claim_counterexample :
    applyJoin "-" (0, Option.some 2) [Cell.int 0, Cell.str "a"] =
      .ok [Cell.str "a"] ∧
    joinClaim "-" (0, Option.some 2) [Cell.int 0, Cell.str "a"] =
      [Cell.str "0-a"] ∧
    applyJoin "-" (0, Option.some 2) [Cell.int 0, Cell.str "a"] ≠
      .ok (joinClaim "-" (0, Option.some 2) [Cell.int 0, Cell.str "a"]) ∧
    applyJoin "-" (0, Option.some 2) [Cell.int 1, Cell.int 2] =
      .error "TypeError: sequence item expected str instance" ∧
    joinStage "-" [((1 : Int), Option.some (3 : Int)), (0, Option.some 2)].reverse
        [Cell.str "a", Cell.str "b", Cell.str "c", Cell.str "d"] =
      .ok [Cell.str "a-b", Cell.str "c-d"] ∧
    joinStage "-" [((1 : Int), Option.some (3 : Int)), (0, Option.some 2)].reverse
        [Cell.str "a", Cell.str "b", Cell.str "c", Cell.str "d"] ≠
      .ok [Cell.str "a-b-c", Cell.str "d"] := by
  decide

/-! ## TableWriter claims -/

/-- C3: at the failing input (heading count 2, three one-cell rows,
ascii style) the renderer emits a divider after each of the first two
rows — two dividers, not one placed after the second row as the claim,
the source's own comment, and the parallel markdown branch intend.
The `nosep` part of the claim does hold: no divider is ever emitted. -/
theorem table_divider_after_every_heading_row :
    tableLines .ascii 2 [[Cell.str "a"], [Cell.str "b"], [Cell.str "c"]] =
      .ok ["a", "-", "b", "-", "c"] ∧
    tableLines .nosep 2 [[Cell.str "a"], [Cell.str "b"], [Cell.str "c"]] =
      .ok ["a", "b", "c"] := by
  decide

/-- C4 counterexample: a float cell is measured with `str()` width 4
(`"3.25"`) but rendered with `"%f"` as `"3.250000"` (8 characters), so
the two rendered lines have different total widths. -/
theorem table_width_float_counterexample :
    tableLines .ascii 0 [[Cell.float (.fin 325 2)], [Cell.str "abcd"]] =
      .ok ["3.250000", "abcd"] ∧
    ("3.250000" : String).length = 8 ∧ ("abcd" : String).length = 4 ∧
    cellWidth (Cell.float (.fin 325 2)) = 4 := by
  decide

theorem exMapM_eq_map {α β : Type} {f : α → Except String β} {g : α → β} :
    ∀ {l : List α}, (∀ a ∈ l, f a = .ok (g a)) → exMapM f l = .ok (l.map g) := by
  intro l
  induction l with
  | nil => intro _; rfl
  | cons a l ih =>
    intro h
    unfold exMapM
    rw [h a (List.mem_cons_self ..), ih (fun x hx => h x (List.mem_cons_of_mem _ hx))]
    rfl

theorem foldl_max_init_le (l : List Nat) : ∀ v : Nat, v ≤ l.foldl max v := by
  induction l with
  | nil => intro v; exact le_refl v
  | cons a l ih =>
    intro v
    calc v ≤ max v a := le_max_left ..
    _ ≤ l.foldl max (max v a) := ih _

theorem mem_le_foldl_max {l : List Nat} {x : Nat} (hx : x ∈ l) :
    ∀ v : Nat, x ≤ l.foldl max v := by
  induction l with
  | nil => exact absurd hx (List.not_mem_nil x)
  | cons a l ih =>
    intro v
    rcases List.mem_cons.mp hx with rfl | hx2
    · calc x ≤ max v x := le_max_right ..
      _ ≤ l.foldl max (max v x) := foldl_max_init_le ..
    · exact ih hx2 _

theorem le_reduceMax {l : List Nat} {x : Nat} (hx : x ∈ l) : x ≤ reduceMax l := by
  rcases l with _ | ⟨a, l⟩
  · exact absurd hx (List.not_mem_nil x)
  · rcases List.mem_cons.mp hx with rfl | hx2
    · exact foldl_max_init_le ..
    · exact mem_le_foldl_max hx2 _

theorem string_length_mk (l : List Char) : (String.mk l).length = l.length := rfl

theorem padLeft_length {w : Nat} {s : String} (h : s.length ≤ w) :
    (padLeft w s).length = w := by
  unfold padLeft spaces
  rw [string_length_mk, List.length_append, List.length_replicate]
  have : s.data.length = s.length := rfl
  omega

theorem padRight_length {w : Nat} {s : String} (h : s.length ≤ w) :
    (padRight w s).length = w := by
  unfold padRight spaces
  rw [string_length_mk, List.length_append, List.length_replicate]
  have : s.data.length = s.length := rfl
  omega

theorem tabfmt_length {c : Cell} {w : Nat} (hnf : cellIsFloat c = false)
    (hw : cellWidth c ≤ w) : (tabfmt c w).length = w := by
  rcases c with s | n | f | _
  · exact padRight_length hw
  · exact padLeft_length hw
  · exact Bool.noConfusion hnf
  · exact padRight_length hw

theorem strRepeat_length (s : String) : ∀ n, (strRepeat s n).length = n * s.length := by
  intro n
  induction n with
  | zero => simp [strRepeat]
  | succ n ih =>
    show (s ++ strRepeat s n).length = (n + 1) * s.length
    rw [String.length_append, ih]
    ring

theorem joinSep_length (sep : String) :
    ∀ xs : List String, (joinSep sep xs).length =
      (xs.map String.length).sum + (xs.length - 1) * sep.length := by
  intro xs
  induction xs with
  | nil => simp [joinSep]
  | cons x xs ih =>
    rcases xs with _ | ⟨y, ys⟩
    · show x.length = (List.map String.length [x]).sum + 0 * sep.length
      simp
    · show (x ++ sep ++ joinSep sep (y :: ys)).length = _
      rw [String.length_append, String.length_append, ih]
      simp only [List.map_cons, List.sum_cons, List.length_cons]
      have h1 : ys.length + 1 - 1 = ys.length := by omega
      have h2 : ys.length + 1 + 1 - 1 = ys.length + 1 := by omega
      rw [h1, h2]
      ring

theorem getD_eq_of_lt {l : List Cell} {c : Nat} (h : c < l.length) :
    l[c]? = Option.some (l.getD c Cell.none) := by
  rw [List.getD_eq_getElem?_getD, List.getElem?_eq_getElem h]
  rfl

theorem getD_mem_of_lt {l : List Cell} {c : Nat} (h : c < l.length) :
    l.getD c Cell.none ∈ l := by
  rw [List.getD_eq_getElem?_getD, List.getElem?_eq_getElem h]
  exact List.getElem_mem ..

theorem widf_ge {data : List (List Cell)} {row : List Cell} {c : Nat}
    (hrow : row ∈ data) : cellWidth (row.getD c Cell.none) ≤ widf data c := by
  apply le_reduceMax
  exact List.mem_map.mpr ⟨row, hrow, rfl⟩

theorem colWidths_eq {d0 : List Cell} {rest : List (List Cell)}
    (hlen : ∀ row ∈ d0 :: rest, row.length = d0.length) :
    colWidths (d0 :: rest) d0.length =
      .ok ((List.range d0.length).map (widf (d0 :: rest))) := by
  unfold colWidths
  apply exMapM_eq_map
  intro c hc
  have hcn : c < d0.length := List.mem_range.mp hc
  have hinner : exMapM (fun row =>
      match row[c]? with
      | Option.some v => Except.ok (cellWidth v)
      | Option.none => Except.error "IndexError") (d0 :: rest) =
      .ok ((d0 :: rest).map (fun row => cellWidth (row.getD c Cell.none))) := by
    apply exMapM_eq_map
    intro row hrow
    have : c < row.length := by rw [hlen row hrow]; exact hcn
    rw [getD_eq_of_lt this]
  rw [hinner]
  rfl

theorem getElem?_range_map_widf {data : List (List Cell)} {n c : Nat}
    (h : c < n) :
    ((List.range n).map (widf data))[c]? = Option.some (widf data c) := by
  rw [List.getElem?_map, List.getElem?_range h]
  rfl

/-- All lines produced for one buffered row have the fixed total
width. -/
theorem rowLines_width {st : TStyle} {hl : Nat} {d0 : List Cell}
    {rest : List (List Cell)} {r : Nat} {row : List Cell}
    (hlen : ∀ row ∈ d0 :: rest, row.length = d0.length)
    (hnf : ∀ row ∈ d0 :: rest, ∀ c ∈ row, cellIsFloat c = false)
    (hrow : row ∈ d0 :: rest) :
    ∃ ls, rowLines st hl ((List.range d0.length).map (widf (d0 :: rest))) r row
        = .ok ls ∧
      ∀ l ∈ ls, l.length =
        ((List.range d0.length).map (widf (d0 :: rest))).sum +
          (d0.length - 1) * (colSep st).length := by
  have hrl : row.length = d0.length := hlen row hrow
  have hcells : lineCells ((List.range d0.length).map (widf (d0 :: rest))) row =
      .ok ((List.range row.length).map
        (fun c => tabfmt (row.getD c Cell.none) (widf (d0 :: rest) c))) := by
    unfold lineCells
    apply exMapM_eq_map
    intro c hc
    have hcn : c < row.length := List.mem_range.mp hc
    rw [getD_eq_of_lt hcn, getElem?_range_map_widf (by omega : c < d0.length)]
  have hcelllen : ∀ c ∈ List.range row.length,
      (tabfmt (row.getD c Cell.none) (widf (d0 :: rest) c)).length =
        widf (d0 :: rest) c := by
    intro c hc
    have hcn : c < row.length := List.mem_range.mp hc
    exact tabfmt_length (hnf row hrow _ (getD_mem_of_lt hcn)) (widf_ge hrow)
  have hlinelen :
      (joinSep (colSep st) ((List.range row.length).map
        (fun c => tabfmt (row.getD c Cell.none) (widf (d0 :: rest) c)))).length =
      ((List.range d0.length).map (widf (d0 :: rest))).sum +
        (d0.length - 1) * (colSep st).length := by
    rw [joinSep_length, List.map_map]
    have hmc : (List.range row.length).map
        (String.length ∘ fun c => tabfmt (row.getD c Cell.none) (widf (d0 :: rest) c)) =
        (List.range row.length).map (widf (d0 :: rest)) :=
      List.map_congr_left hcelllen
    rw [hmc, hrl, List.length_map, List.length_range]
  unfold rowLines
  rw [hcells]
  show ∃ ls, (if 0 < hl ∧ r < hl ∧ st ≠ TStyle.nosep then
      match divCells st ((List.range d0.length).map (widf (d0 :: rest))) row with
      | Except.error e => Except.error e
      | Except.ok ds =>
        Except.ok [joinSep (colSep st) ((List.range row.length).map
            (fun c => tabfmt (row.getD c Cell.none) (widf (d0 :: rest) c))),
          joinSep (divSep st) ds]
    else Except.ok [joinSep (colSep st) ((List.range row.length).map
        (fun c => tabfmt (row.getD c Cell.none) (widf (d0 :: rest) c)))]) =
      Except.ok ls ∧
    ∀ l ∈ ls, l.length =
      ((List.range d0.length).map (widf (d0 :: rest))).sum +
        (d0.length - 1) * (colSep st).length
  by_cases hdiv : 0 < hl ∧ r < hl ∧ st ≠ TStyle.nosep
  · rw [if_pos hdiv]
    have hdc : divCells st ((List.range d0.length).map (widf (d0 :: rest))) row =
        .ok ((List.range row.length).map
          (fun c => strRepeat (headSep st) (widf (d0 :: rest) c))) := by
      unfold divCells
      apply exMapM_eq_map
      intro c hc
      have hcn : c < row.length := List.mem_range.mp hc
      rw [getElem?_range_map_widf (by omega : c < d0.length)]
    rw [hdc]
    refine ⟨_, rfl, ?_⟩
    intro l hlmem
    rcases List.mem_cons.mp hlmem with rfl | hlmem2
    · exact hlinelen
    · rcases List.mem_cons.mp hlmem2 with rfl | hlmem3
      · have hsep : (divSep st).length = (colSep st).length ∧
            (headSep st).length = 1 := by
          rcases hdiv with ⟨_, _, hns⟩
          rcases st with _ | _ | _
          · exact ⟨by decide, by decide⟩
          · exact ⟨by decide, by decide⟩
          · exact absurd rfl hns
        rw [joinSep_length, List.map_map]
        have hdl : (List.range row.length).map
            (String.length ∘ fun c => strRepeat (headSep st) (widf (d0 :: rest) c)) =
            (List.range row.length).map (widf (d0 :: rest)) := by
          apply List.map_congr_left
          intro c _
          show (strRepeat (headSep st) (widf (d0 :: rest) c)).length = _
          rw [strRepeat_length, hsep.2, Nat.mul_one]
        rw [hdl, hrl, List.length_map, List.length_range, hsep.1]
      · exact absurd hlmem3 (List.not_mem_nil l)
  · rw [if_neg hdiv]
    refine ⟨_, rfl, ?_⟩
    intro l hlmem
    rcases List.mem_cons.mp hlmem with rfl | hlmem2
    · exact hlinelen
    · exact absurd hlmem2 (List.not_mem_nil l)

theorem tableLinesAux_width {st : TStyle} {hl : Nat} {d0 : List Cell}
    {rest : List (List Cell)}
    (hlen : ∀ row ∈ d0 :: rest, row.length = d0.length)
    (hnf : ∀ row ∈ d0 :: rest, ∀ c ∈ row, cellIsFloat c = false) :
    ∀ (rows : List (List Cell)) (r : Nat),
      (∀ row ∈ rows, row ∈ d0 :: rest) →
      ∃ ls, tableLinesAux st hl
          ((List.range d0.length).map (widf (d0 :: rest))) r rows = .ok ls ∧
        ∀ l ∈ ls, l.length =
          ((List.range d0.length).map (widf (d0 :: rest))).sum +
            (d0.length - 1) * (colSep st).length := by
  intro rows
  induction rows with
  | nil =>
    intro r _
    exact ⟨[], rfl, fun l hl2 => absurd hl2 (List.not_mem_nil l)⟩
  | cons row rows ih =>
    intro r hmem
    rcases @rowLines_width st hl d0 rest r row hlen hnf
      (hmem row (List.mem_cons_self ..)) with ⟨ls1, hok1, hlen1⟩
    rcases ih (r + 1) (fun x hx => hmem x (List.mem_cons_of_mem _ hx))
      with ⟨ls2, hok2, hlen2⟩
    refine ⟨ls1 ++ ls2, ?_, ?_⟩
    · unfold tableLinesAux
      rw [hok1, hok2]
      rfl
    · intro l hlm
      rcases List.mem_append.mp hlm with h | h
      · exact hlen1 l h
      · exact hlen2 l h

/-- C4 (amended): when every buffered row has the same number of cells
as the first row and no cell is a float, rendering succeeds, the column
widths are the per-column maxima of the cells' display widths, and
every emitted line (data lines and dividers alike) has total character
width equal to the sum of the column widths plus the widths of the
`ncols - 1` column separators.  (Rows of differing length raise
`IndexError`, and float cells break the width computation, as the
counterexample shows.) -/
theorem table_fixed_width_amended (st : TStyle) (hl : Nat) (d0 : List Cell)
    (rest : List (List Cell))
    (hlen : ∀ row ∈ d0 :: rest, row.length = d0.length)
    (hnf : ∀ row ∈ d0 :: rest, ∀ c ∈ row, cellIsFloat c = false) :
    ∃ ls, tableLines st hl (d0 :: rest) = .ok ls ∧
      colWidths (d0 :: rest) d0.length =
        .ok ((List.range d0.length).map (widf (d0 :: rest))) ∧
      ∀ l ∈ ls, l.length =
        ((List.range d0.length).map (widf (d0 :: rest))).sum +
          (d0.length - 1) * (colSep st).length := by
  rcases @tableLinesAux_width st hl d0 rest hlen hnf (d0 :: rest) 0
    (fun x hx => hx) with ⟨ls, hok, hlens⟩
  refine ⟨ls, ?_, colWidths_eq hlen, hlens⟩
  show (match colWidths (d0 :: rest) d0.length with
    | Except.error e => Except.error e
    | Except.ok wid => tableLinesAux st hl wid 0 (d0 :: rest)) = Except.ok ls
  rw [colWidths_eq hlen]
  exact hok

/-- Witness for the amended C4 theorem at the spec's single-column
example `["1","22","333"]`. -/
theorem table_fixed_width_amended_witness :
    ∃ ls, tableLines .ascii 0 [[Cell.str "1"], [Cell.str "22"], [Cell.str "333"]]
        = .ok ls ∧
      colWidths [[Cell.str "1"], [Cell.str "22"], [Cell.str "333"]] 1 =
        .ok ((List.range 1).map
          (widf [[Cell.str "1"], [Cell.str "22"], [Cell.str "333"]])) ∧
      ∀ l ∈ ls, l.length =
        ((List.range 1).map
          (widf [[Cell.str "1"], [Cell.str "22"], [Cell.str "333"]])).sum +
          (1 - 1) * (colSep .ascii).length :=
  table_fixed_width_amended .ascii 0 [Cell.str "1"]
    [[Cell.str "22"], [Cell.str "333"]] (by decide) (by decide)
